import Mathlib

/-!
Verification development for the FreshQuant multi-factor scoring engine
(`freshquant/factors/multiple_factor_analysis.py`, `freshquant/general/util.py`).

Panels are tables keyed by (date, security).  A cell is `Option ℚ`: `none`
plays the role of a floating NaN, `some v` a finite value.  External
collaborators of the sources (statsmodels OLS, the `information_coefficient`
metric from the absent `metrics` module, the square root used by a rolling
standard deviation, and the externally materialised context tables) are
parameters of the embedding.
-/

namespace FreshQuant

/-- Pandas-style skipna sum of a row: `Series.sum` adds the non-missing
entries and returns 0 when everything is missing. -/
def sumO (row : List (Option ℚ)) : ℚ :=
  row.foldr (fun o acc => match o with | some v => v + acc | none => acc) 0

/-- Number of missing entries of a column, as `isnull().sum()` counts them,
expressed over the positions of the list. -/
def countNone (xs : List (Option ℚ)) : ℕ :=
  (Finset.univ.filter (fun i : Fin xs.length => (xs.get i).isNone = true)).card

/-- Positions of a cross-sectional column holding a value. -/
def validPos (xs : List (Option ℚ)) : Finset (Fin xs.length) :=
  Finset.univ.filter (fun i => (xs.get i).isSome = true)

/-- Sort key direction: pandas `rank(ascending=True)` orders by the value,
`ascending=False` by its negation. -/
def rankKey (asc : Bool) (v : ℚ) : ℚ := if asc then v else -v

/-- The strict order that `rank(method='first')` sorts by: by (directed)
value, ties broken by first occurrence, i.e. by position. -/
def keyLt (a b : ℚ × ℕ) : Prop := a.1 < b.1 ∨ (a.1 = b.1 ∧ a.2 < b.2)

instance : DecidableRel keyLt := fun a b => by unfold keyLt; infer_instance

/-- Sort key of position `i` of a column (the value slot of a missing entry
is irrelevant: missing positions never take part in the comparisons). -/
def posKey (asc : Bool) (xs : List (Option ℚ)) (i : Fin xs.length) : ℚ × ℕ :=
  (rankKey asc ((xs.get i).getD 0), (i : ℕ))

/-- Pandas `Series.rank(ascending, na_option='keep', method='first')` on one
cross-sectional column: a non-missing entry receives 1 plus the number of
non-missing entries strictly before it in the stable sort; a missing entry
keeps NaN. -/
def rankAt (asc : Bool) (xs : List (Option ℚ)) (i : Fin xs.length) : Option ℕ :=
  if (xs.get i).isSome then
    some (1 + ((validPos xs).filter
      (fun j => keyLt (posKey asc xs j) (posKey asc xs i))).card)
  else none

/-! The generic counting fact behind rank completeness: counting, inside a
finite set, the elements with a strictly smaller (injective) key is a
bijection onto an initial segment. -/

theorem rankCount_image {ι κ : Type} [DecidableEq ι] [LinearOrder κ] (k : ι → κ)
    (s : Finset ι) (hinj : Set.InjOn k s) :
    s.image (fun i => (s.filter (fun j => k j < k i)).card) = Finset.range s.card := by
  induction s using Finset.strongInduction with
  | _ s ih =>
    rcases s.eq_empty_or_nonempty with rfl | hne
    · simp
    · obtain ⟨m, hm, hmax⟩ := s.exists_max_image k hne
      have hins : insert m (s.erase m) = s := Finset.insert_erase hm
      have hstrict : ∀ i ∈ s, i ≠ m → k i < k m := by
        intro i hi hne'
        rcases lt_or_eq_of_le (hmax i hi) with h | h
        · exact h
        · exact absurd (hinj hi hm h) hne'
      have hfm : s.filter (fun j => k j < k m) = s.erase m := by
        ext j
        simp only [Finset.mem_filter, Finset.mem_erase]
        constructor
        · rintro ⟨hj, hlt⟩
          exact ⟨fun hjm => absurd hlt (by simp [hjm]), hj⟩
        · rintro ⟨hjm, hj⟩
          exact ⟨hj, hstrict j hj hjm⟩
      have hcardm : (s.filter (fun j => k j < k m)).card = s.card - 1 := by
        rw [hfm, Finset.card_erase_of_mem hm]
      have hothers : ∀ i ∈ s.erase m,
          (s.filter (fun j => k j < k i)).card
            = ((s.erase m).filter (fun j => k j < k i)).card := by
        intro i hi
        have hi' : i ∈ s := Finset.mem_of_mem_erase hi
        have him : i ≠ m := Finset.ne_of_mem_erase hi
        congr 1
        ext j
        simp only [Finset.mem_filter, Finset.mem_erase]
        constructor
        · rintro ⟨hj, hlt⟩
          refine ⟨⟨?_, hj⟩, hlt⟩
          rintro rfl
          exact absurd (hstrict i hi' him) (lt_asymm hlt)
        · rintro ⟨⟨_, hj⟩, hlt⟩
          exact ⟨hj, hlt⟩
      have hsub : s.erase m ⊂ s := Finset.erase_ssubset hm
      have hinj' : Set.InjOn k (s.erase m) :=
        hinj.mono (by exact_mod_cast Finset.coe_subset.mpr hsub.subset)
      have hrec : (s.erase m).image
          (fun i => ((s.erase m).filter (fun j => k j < k i)).card)
            = Finset.range (s.erase m).card := ih (s.erase m) hsub hinj'
      have key : ∀ f : ι → ℕ, s.image f = insert (f m) ((s.erase m).image f) := by
        intro f
        conv_lhs => rw [← hins]
        rw [Finset.image_insert]
      have himg := key (fun i => (s.filter (fun j => k j < k i)).card)
      simp only [] at himg
      rw [hcardm] at himg
      have himg2 : (s.erase m).image (fun i => (s.filter (fun j => k j < k i)).card)
          = (s.erase m).image (fun i => ((s.erase m).filter (fun j => k j < k i)).card) :=
        Finset.image_congr (fun i hi => hothers i hi)
      have hpos : 0 < s.card := Finset.card_pos.mpr hne
      rw [himg, himg2, hrec, Finset.card_erase_of_mem hm, ← Finset.range_succ]
      congr 1
      omega

theorem keyLt_iff_toLex (a b : ℚ × ℕ) : keyLt a b ↔ toLex a < toLex b := by
  unfold keyLt
  exact (Prod.Lex.lt_iff a b).symm

theorem rank_image_valid (asc : Bool) (xs : List (Option ℚ)) :
    (validPos xs).image (fun i =>
        ((validPos xs).filter (fun j => keyLt (posKey asc xs j) (posKey asc xs i))).card)
      = Finset.range (validPos xs).card := by
  have hinj : Set.InjOn (fun i => toLex (posKey asc xs i)) (validPos xs) := by
    intro a _ b _ h
    have h2 : posKey asc xs a = posKey asc xs b := by
      simpa using congrArg ofLex h
    exact Fin.ext (congrArg Prod.snd h2)
  have hfe : ∀ i ∈ validPos xs,
      ((validPos xs).filter (fun j => keyLt (posKey asc xs j) (posKey asc xs i))).card
        = ((validPos xs).filter
            (fun j => toLex (posKey asc xs j) < toLex (posKey asc xs i))).card := by
    intro i _
    congr 1
    exact Finset.filter_congr (fun j _ => by
      simpa using keyLt_iff_toLex (posKey asc xs j) (posKey asc xs i))
  calc (validPos xs).image (fun i =>
        ((validPos xs).filter (fun j => keyLt (posKey asc xs j) (posKey asc xs i))).card)
      = (validPos xs).image (fun i => ((validPos xs).filter
          (fun j => toLex (posKey asc xs j) < toLex (posKey asc xs i))).card) :=
        Finset.image_congr (fun i hi => hfe i hi)
    _ = Finset.range (validPos xs).card :=
        rankCount_image (fun i => toLex (posKey asc xs i)) (validPos xs) hinj

/-- Refilling step shared by the two `get_rank` variants: add an offset to a
surviving rank (`x + x.isnull().sum()` in one variant, `rnk += rnk.isnull().sum()`
in the other) and then `fillna(0.0)`. -/
def fillRank (off : ℕ) (o : Option ℕ) : ℕ :=
  match o with
  | some r => r + off
  | none => 0

theorem range_shift_Icc (K off : ℕ) :
    (Finset.range K).image (fun c => 1 + c + off) = Finset.Icc (off + 1) (off + K) := by
  ext x
  simp only [Finset.mem_image, Finset.mem_range, Finset.mem_Icc]
  constructor
  · rintro ⟨c, hc, rfl⟩
    omega
  · rintro ⟨h1, h2⟩
    exact ⟨x - off - 1, by omega, by omega⟩

theorem fillRank_image (asc : Bool) (xs : List (Option ℚ)) (off : ℕ) :
    (validPos xs).image (fun i => fillRank off (rankAt asc xs i))
      = Finset.Icc (off + 1) (off + (validPos xs).card) := by
  have hval : ∀ i ∈ validPos xs,
      fillRank off (rankAt asc xs i)
        = 1 + ((validPos xs).filter
            (fun j => keyLt (posKey asc xs j) (posKey asc xs i))).card + off := by
    intro i hi
    simp only [validPos, Finset.mem_filter, Finset.mem_univ, true_and] at hi
    rw [List.get_eq_getElem] at hi
    simp [rankAt, fillRank, hi]
  calc (validPos xs).image (fun i => fillRank off (rankAt asc xs i))
      = (validPos xs).image (fun i => 1 + ((validPos xs).filter
          (fun j => keyLt (posKey asc xs j) (posKey asc xs i))).card + off) :=
        Finset.image_congr (fun i hi => hval i hi)
    _ = ((validPos xs).image (fun i => ((validPos xs).filter
          (fun j => keyLt (posKey asc xs j) (posKey asc xs i))).card)).image
            (fun c => 1 + c + off) := by
        rw [Finset.image_image]
        rfl
    _ = (Finset.range (validPos xs).card).image (fun c => 1 + c + off) := by
        rw [rank_image_valid]
    _ = Finset.Icc (off + 1) (off + (validPos xs).card) :=
        range_shift_Icc (validPos xs).card off

theorem validPos_card_add_countNone (xs : List (Option ℚ)) :
    (validPos xs).card + countNone xs = xs.length := by
  have h : (Finset.univ.filter (fun i : Fin xs.length => (xs.get i).isNone = true))
      = (Finset.univ.filter (fun i : Fin xs.length => ¬ ((xs.get i).isSome = true))) := by
    apply Finset.filter_congr
    intro i _
    cases xs.get i <;> simp
  calc (validPos xs).card + countNone xs
      = (Finset.univ.filter (fun i : Fin xs.length => (xs.get i).isSome = true)).card
        + (Finset.univ.filter (fun i : Fin xs.length => ¬ ((xs.get i).isSome = true))).card := by
        rw [validPos, countNone, h]
    _ = (Finset.univ : Finset (Fin xs.length)).card :=
        Finset.filter_card_add_filter_neg_card_eq_card _
    _ = xs.length := by simp

/-- Per-date rank of `score.get_rank`: rank with first-occurrence tie break,
then per-date group offset by that date's missing count, then `fillna(0.0)`. -/
def scoreRankAt (asc : Bool) (xs : List (Option ℚ)) (i : Fin xs.length) : ℕ :=
  fillRank (countNone xs) (rankAt asc xs i)

/-- Per-date rank column of `score.get_rank`, as a list in row order. -/
def scoreGetRankDate (asc : Bool) (xs : List (Option ℚ)) : List ℕ :=
  (List.finRange xs.length).map (fun i => scoreRankAt asc xs i)

/-- Total missing count of one factor column over all dates (what the
ungrouped `rnk.isnull().sum()` of `dynamic_score.get_rank` adds). -/
def dynTotalMissing (col : List (List (Option ℚ))) : ℕ :=
  (col.map countNone).sum

/-- Per-date rank of `dynamic_score.get_rank` (default `method='first'`,
`na_option='keep'`): same per-date ranking, but the offset added before
`fillna(0.0)` is the whole column's missing count, not the date's. -/
def dynRankAt (asc : Bool) (mTot : ℕ) (xs : List (Option ℚ)) (i : Fin xs.length) : ℕ :=
  fillRank mTot (rankAt asc xs i)

/-- Factor column of ranks produced by `dynamic_score.get_rank`, one inner
list per date. -/
def dynGetRankCol (asc : Bool) (col : List (List (Option ℚ))) : List (List ℕ) :=
  col.map (fun xs => (List.finRange xs.length).map (dynRankAt asc (dynTotalMissing col) xs))

/-- C2 (amended): per date and factor, `score.get_rank` assigns the non-missing
entries exactly the ranks {M+1, ..., N} (M = that date's missing count, N =
cross-section size), each exactly once, and rank 0 to every missing entry.
`dynamic_score.get_rank` instead offsets by the column's TOTAL missing count
over all dates: on a date whose cross-section has K non-missing entries it
assigns exactly {Mtot+1, ..., Mtot+K}, each once, and 0 to missing entries. -/
theorem c2_rank_completeness :
    (∀ (asc : Bool) (xs : List (Option ℚ)),
      (validPos xs).image (scoreRankAt asc xs)
          = Finset.Icc (countNone xs + 1) xs.length
        ∧ Set.InjOn (scoreRankAt asc xs) (validPos xs)
        ∧ ∀ i, i ∉ validPos xs → scoreRankAt asc xs i = 0)
    ∧ (∀ (asc : Bool) (col : List (List (Option ℚ))), ∀ xs ∈ col,
      (validPos xs).image (dynRankAt asc (dynTotalMissing col) xs)
          = Finset.Icc (dynTotalMissing col + 1)
              (dynTotalMissing col + (validPos xs).card)
        ∧ Set.InjOn (dynRankAt asc (dynTotalMissing col) xs) (validPos xs)
        ∧ ∀ i, i ∉ validPos xs → dynRankAt asc (dynTotalMissing col) xs i = 0) := by
  have hzero : ∀ (asc : Bool) (xs : List (Option ℚ)) (off : ℕ),
      ∀ i, i ∉ validPos xs → fillRank off (rankAt asc xs i) = 0 := by
    intro asc xs off i hi
    simp only [validPos, Finset.mem_filter, Finset.mem_univ, true_and] at hi
    simp only [Bool.not_eq_true] at hi
    rw [List.get_eq_getElem] at hi
    simp [rankAt, fillRank, hi]
  have hinj : ∀ (asc : Bool) (xs : List (Option ℚ)) (off : ℕ),
      Set.InjOn (fun i => fillRank off (rankAt asc xs i)) (validPos xs) := by
    intro asc xs off
    apply Finset.injOn_of_card_image_eq
    rw [fillRank_image, Nat.card_Icc]
    omega
  constructor
  · intro asc xs
    refine ⟨?_, hinj asc xs (countNone xs), hzero asc xs (countNone xs)⟩
    have h := fillRank_image asc xs (countNone xs)
    have hlen : countNone xs + (validPos xs).card = xs.length := by
      have := validPos_card_add_countNone xs
      omega
    rw [hlen] at h
    exact h
  · intro asc col xs _
    exact ⟨fillRank_image asc xs (dynTotalMissing col),
      hinj asc xs (dynTotalMissing col), hzero asc xs (dynTotalMissing col)⟩

/-- C2 counterexample: on the one-factor column with cross-sections
[NaN, 1] on date 1 and [1, 2] on date 2, `dynamic_score.get_rank` yields
[[0, 2], [2, 3]]: on date 2 (N = 2 securities, M = 0 missing) the assigned
ranks are {2, 3}, not the claimed {M+1, ..., N} = {1, 2}. -/
theorem c2_counterexample :
    dynGetRankCol true [[none, some 1], [some 1, some 2]] = [[0, 2], [2, 3]]
    ∧ (validPos [some (1:ℚ), some 2]).image
        (dynRankAt true (dynTotalMissing [[none, some (1:ℚ)], [some 1, some 2]])
          [some (1:ℚ), some 2])
      ≠ Finset.Icc (countNone [some (1:ℚ), some 2] + 1)
          ([some (1:ℚ), some 2]).length := by
  constructor
  · decide
  · decide

/-- C2 witness: the amended theorem applied to the concrete column of the
counterexample, at date 2. -/
theorem c2_witness :
    (validPos [some (1:ℚ), some 2]).image
        (dynRankAt true (dynTotalMissing [[none, some (1:ℚ)], [some 1, some 2]])
          [some (1:ℚ), some 2])
      = Finset.Icc (dynTotalMissing [[none, some (1:ℚ)], [some 1, some 2]] + 1)
          (dynTotalMissing [[none, some (1:ℚ)], [some 1, some 2]]
            + (validPos [some (1:ℚ), some 2]).card) :=
  (c2_rank_completeness.2 true [[none, some (1:ℚ)], [some 1, some 2]]
    [some (1:ℚ), some 2] (by decide)).1

/-! Cross-sectional regression combination (`regress` / `common_regress`).
A regression panel row carries a date, a security code, the factor exposures
and the forward return; the panel is the list of its rows.  The per-date OLS
solver (statsmodels `smf.ols(...).fit().params`) is an external collaborator
and enters as a parameter returning (intercept, betas); residuals are
`ret - (intercept + betas · facs)`, exactly what `.fit().resid` holds. -/

structure RRow where
  dt : ℕ
  code : ℕ
  facs : List ℚ
  ret : ℚ
deriving DecidableEq

def dotQ : List ℚ → List ℚ → ℚ
  | a :: al, b :: bl => a * b + dotQ al bl
  | _, _ => 0

/-- Rows of one date's cross-section (panel grouped by index level 0). -/
def crossSection (p : List RRow) (d : ℕ) : List RRow :=
  p.filter (fun r => r.dt == d)

/-- The (intercept, betas) fitted on one date's cross-section. -/
def fitAt (ols : List (List ℚ × ℚ) → ℚ × List ℚ) (p : List RRow) (d : ℕ) :
    ℚ × List ℚ :=
  ols ((crossSection p d).map (fun r => (r.facs, r.ret)))

/-- One row of the `ret_ols_fac` result: the residual together with the
`Intercept` and per-factor `beta_` columns, all from the same date's fit. -/
structure FitRow where
  resid : ℚ
  intercept : ℚ
  betas : List ℚ
deriving DecidableEq

def datesOf (p : List RRow) : List ℕ := (p.map (·.dt)).dedup

/-- Rows that `ret_ols_fac` yields for one date's cross-section. -/
def paramsCS (ols : List (List ℚ × ℚ) → ℚ × List ℚ) (p : List RRow) (d : ℕ) :
    List (ℕ × ℕ × FitRow) :=
  (crossSection p d).map (fun r =>
    (d, r.code,
      ⟨r.ret - ((fitAt ols p d).1 + dotQ r.facs (fitAt ols p d).2),
        (fitAt ols p d).1, (fitAt ols p d).2⟩))

/-- `get_params`: the date-grouped apply of `ret_ols_fac` over the panel. -/
def get_params (ols : List (List ℚ × ℚ) → ℚ × List ℚ) (p : List RRow) :
    List (ℕ × ℕ × FitRow) :=
  (datesOf p).flatMap (fun d => paramsCS ols p d)

/-- The date the one-period shift within a security's group reaches from
date `d`: the security's latest earlier date, if any. -/
def prevDate (p : List RRow) (c d : ℕ) : Option ℕ :=
  ((p.filter (fun r => r.code == c && decide (r.dt < d))).map (·.dt)).max?

/-- The lagged parameter row a (date, security) pair sees after
`params.groupby(level=1).shift(1)`: the same security's previous date's
`ret_ols_fac` row, or missing on its first date. -/
def laggedParamAt (ols : List (List ℚ × ℚ) → ℚ × List ℚ) (p : List RRow)
    (c d : ℕ) : Option FitRow :=
  match prevDate p c d with
  | none => none
  | some d' =>
    ((get_params ols p).find? (fun e => e.1 == d' && e.2.1 == c)).map
      (fun e => e.2.2)

/-- `common_regress`: join the factor columns with the shifted parameters,
drop the rows whose lag is missing, and rebuild
`ret = Intercept + resid` plus `fac * beta_fac` summed over the factors.
Output rows are (date, code, reconstructed return). -/
def common_regress (ols : List (List ℚ × ℚ) → ℚ × List ℚ) (p : List RRow) :
    List (ℕ × ℕ × ℚ) :=
  p.filterMap (fun r =>
    (laggedParamAt ols p r.code r.dt).map (fun fr =>
      (r.dt, r.code, fr.intercept + fr.resid + dotQ r.facs fr.betas)))

/-- Residual of security `c` inside the fit of date `d` (as `.fit().resid`
holds it for the cross-section's first row of that code). -/
def residOf (ols : List (List ℚ × ℚ) → ℚ × List ℚ) (p : List RRow)
    (d c : ℕ) : Option ℚ :=
  match (crossSection p d).find? (fun r => r.code == c) with
  | none => none
  | some r =>
    some (r.ret - ((fitAt ols p d).1 + dotQ r.facs (fitAt ols p d).2))

/-- Modelled from the spec: "Reconstructed return = lagged intercept +
lagged sum(factor × lagged beta) + current-date residual" — the residual is
taken from the CURRENT date's fit; written only to be compared with what
`common_regress` computes. -/
def reconRetSpec (ols : List (List ℚ × ℚ) → ℚ × List ℚ) (p : List RRow)
    (r : RRow) : Option ℚ :=
  match prevDate p r.code r.dt with
  | none => none
  | some d' =>
    match residOf ols p r.dt r.code with
    | none => none
    | some res =>
      some ((fitAt ols p d').1 + dotQ r.facs (fitAt ols p d').2 + res)

/-- Closed-form one-factor least squares, a concrete instance of the
abstract OLS collaborator used to evaluate the embedding on inputs with one
factor column. -/
def singleOLS (rows : List (List ℚ × ℚ)) : ℚ × List ℚ :=
  let xl := rows.map (fun q => q.1.headD 0)
  let yl := rows.map (fun q => q.2)
  let n : ℚ := rows.length
  if n = 0 then (0, [0]) else
  let xm := xl.sum / n
  let ym := yl.sum / n
  let sxx := (xl.map (fun x => (x - xm) * (x - xm))).sum
  let sxy := ((xl.zip yl).map (fun q => (q.1 - xm) * (q.2 - ym))).sum
  if sxx = 0 then (ym, [0]) else (ym - sxy / sxx * xm, [sxy / sxx])

theorem prevDate_lt (p : List RRow) (c d d' : ℕ)
    (h : prevDate p c d = some d') : d' < d := by
  unfold prevDate at h
  have hmem := List.max?_mem (fun _ _ => max_choice _ _) h
  obtain ⟨r, hr, hdt⟩ := List.mem_map.mp hmem
  have := List.of_mem_filter hr
  simp only [Bool.and_eq_true, beq_iff_eq, decide_eq_true_eq] at this
  omega

theorem prevDate_row (p : List RRow) (c d d' : ℕ)
    (h : prevDate p c d = some d') :
    ∃ r ∈ p, r.code = c ∧ r.dt = d' := by
  unfold prevDate at h
  have hmem := List.max?_mem (fun _ _ => max_choice _ _) h
  obtain ⟨r, hr, hdt⟩ := List.mem_map.mp hmem
  have hp := List.mem_of_mem_filter hr
  have hq := List.of_mem_filter hr
  simp only [Bool.and_eq_true, beq_iff_eq, decide_eq_true_eq] at hq
  exact ⟨r, hp, hq.1, hdt⟩

theorem find?_flatMap_block {β : Type} (dl : List ℕ) (g : ℕ → List β)
    (q : β → Bool) (d' : ℕ) (hd : d' ∈ dl) (hnd : dl.Nodup)
    (hother : ∀ d ∈ dl, d ≠ d' → ∀ e ∈ g d, q e = false) :
    (dl.flatMap g).find? q = (g d').find? q := by
  induction dl with
  | nil => cases hd
  | cons a dl ih =>
    rw [List.flatMap_cons, List.find?_append]
    rcases List.mem_cons.mp hd with rfl | hd'
    · have hnone : (dl.flatMap g).find? q = none := by
        rw [List.find?_eq_none]
        intro e he
        obtain ⟨b, hb, heb⟩ := List.mem_flatMap.mp he
        have hbne : b ≠ d' := by
          rintro rfl
          exact (List.nodup_cons.mp hnd).1 hb
        simp [hother b (List.mem_cons_of_mem d' hb) hbne e heb]
      rw [hnone]
      cases hgf : (g d').find? q <;> simp [hgf]
    · have hane : a ≠ d' := by
        rintro rfl
        exact (List.nodup_cons.mp hnd).1 hd'
      have hnone : (g a).find? q = none := by
        rw [List.find?_eq_none]
        intro e he
        simp [hother a (List.mem_cons_self a dl) hane e he]
      rw [hnone]
      have := ih hd' (List.nodup_cons.mp hnd).2
        (fun b hb hbne e he => hother b (List.mem_cons_of_mem a hb) hbne e he)
      simpa using this

theorem laggedParamAt_eq (ols : List (List ℚ × ℚ) → ℚ × List ℚ)
    (p : List RRow) (c d d' : ℕ) (h : prevDate p c d = some d') :
    laggedParamAt ols p c d
      = (residOf ols p d' c).map
          (fun res => ⟨res, (fitAt ols p d').1, (fitAt ols p d').2⟩) := by
  obtain ⟨r0, hr0, hc0, hd0⟩ := prevDate_row p c d d' h
  have hd'mem : d' ∈ datesOf p := by
    rw [datesOf, List.mem_dedup]
    exact List.mem_map.mpr ⟨r0, hr0, hd0⟩
  have hblock : (get_params ols p).find? (fun e => e.1 == d' && e.2.1 == c)
      = (paramsCS ols p d').find? (fun e => e.1 == d' && e.2.1 == c) := by
    apply find?_flatMap_block (datesOf p) (fun d0 => paramsCS ols p d0) _ d'
      hd'mem (List.nodup_dedup _)
    intro d0 _ hne e he
    unfold paramsCS at he
    obtain ⟨r1, _, hr1e⟩ := List.mem_map.mp he
    subst hr1e
    simp [hne]
  unfold laggedParamAt
  rw [h]
  show ((get_params ols p).find? (fun e => e.1 == d' && e.2.1 == c)).map
      (fun e => e.2.2) = _
  rw [hblock]
  unfold paramsCS residOf
  rw [List.find?_map]
  have hpred : ((fun e : ℕ × ℕ × FitRow => e.1 == d' && e.2.1 == c) ∘
      (fun r : RRow =>
        (d', r.code,
          (⟨r.ret - ((fitAt ols p d').1 + dotQ r.facs (fitAt ols p d').2),
            (fitAt ols p d').1, (fitAt ols p d').2⟩ : FitRow))))
      = (fun r : RRow => r.code == c) := by
    funext r
    simp [Function.comp]
  rw [hpred]
  cases hfind : (crossSection p d').find? (fun r => r.code == c) <;> simp

/-- C1 (amended): a (date, security, value) triple is in the output of
`common_regress` iff the panel has that row, the security has a prior date
`d'`, and the value equals the LAGGED intercept plus the LAGGED residual
(both from the prior date's fit) plus the current factors times the lagged
betas; rows whose one-period lag has no prior value are dropped. -/
theorem c1_regress_reconstruction (ols : List (List ℚ × ℚ) → ℚ × List ℚ)
    (p : List RRow) (d c : ℕ) (v : ℚ) :
    (d, c, v) ∈ common_regress ols p ↔
      ∃ r ∈ p, r.dt = d ∧ r.code = c ∧
        ∃ d', prevDate p c d = some d' ∧
          ∃ res, residOf ols p d' c = some res ∧
            v = (fitAt ols p d').1 + res + dotQ r.facs (fitAt ols p d').2 := by
  unfold common_regress
  rw [List.mem_filterMap]
  constructor
  · rintro ⟨r, hr, hfr⟩
    rw [Option.map_eq_some'] at hfr
    obtain ⟨fr, hlag, htup⟩ := hfr
    have hdt : r.dt = d := congrArg (fun t : ℕ × ℕ × ℚ => t.1) htup
    have hcode : r.code = c := congrArg (fun t : ℕ × ℕ × ℚ => t.2.1) htup
    have hv : fr.intercept + fr.resid + dotQ r.facs fr.betas = v :=
      congrArg (fun t : ℕ × ℕ × ℚ => t.2.2) htup
    refine ⟨r, hr, hdt, hcode, ?_⟩
    cases hprev : prevDate p c d with
    | none =>
      rw [laggedParamAt, hdt, hcode, hprev] at hlag
      cases hlag
    | some d' =>
      refine ⟨d', rfl, ?_⟩
      rw [hdt, hcode] at hlag
      rw [laggedParamAt_eq ols p c d d' hprev] at hlag
      rw [Option.map_eq_some'] at hlag
      obtain ⟨res, hres, hfr2⟩ := hlag
      refine ⟨res, hres, ?_⟩
      subst hfr2
      exact hv.symm
  · rintro ⟨r, hr, hdt, hcode, d', hprev, res, hres, hv⟩
    refine ⟨r, hr, ?_⟩
    rw [hdt, hcode, laggedParamAt_eq ols p c d d' hprev, hres]
    simp [hv]

/-- A one-factor, two-date, three-security regression panel used for
concrete evaluations: factor exposures 0, 1, 2 on both dates, returns
(1, 0, 5) on date 1 (fit: intercept 0, beta 2, residuals (1, -2, 1)) and
(-1, 3, 1) on date 2 (fit: intercept 0, beta 1, residuals (-1, 2, -1)). -/
def pC1 : List RRow :=
  [⟨1, 1, [0], 1⟩, ⟨1, 2, [1], 0⟩, ⟨1, 3, [2], 5⟩,
   ⟨2, 1, [0], -1⟩, ⟨2, 2, [1], 3⟩, ⟨2, 3, [2], 1⟩]

/-- C1 counterexample: on `pC1`, `common_regress` returns 1 for security 1
at date 2 (lagged intercept 0 + LAGGED residual 1 + 0·lagged beta), while
the claimed formula with the CURRENT-date residual (-1) gives -1: the code
reconstructs with the lagged residual, not the current one. -/
theorem c1_counterexample :
    common_regress singleOLS pC1
        = [(2, 1, (1 : ℚ)), (2, 2, 0), (2, 3, 5)]
      ∧ reconRetSpec singleOLS pC1 ⟨2, 1, [0], -1⟩ = some (-1 : ℚ)
      ∧ (1 : ℚ) ≠ (-1 : ℚ) := by
  have hcs1 : crossSection pC1 1
      = [⟨1, 1, [0], 1⟩, ⟨1, 2, [1], 0⟩, ⟨1, 3, [2], 5⟩] := by decide
  have hcs2 : crossSection pC1 2
      = [⟨2, 1, [0], -1⟩, ⟨2, 2, [1], 3⟩, ⟨2, 3, [2], 1⟩] := by decide
  have hprev1 : prevDate pC1 1 2 = some 1 := by decide
  have hprev2 : prevDate pC1 2 2 = some 1 := by decide
  have hprev3 : prevDate pC1 3 2 = some 1 := by decide
  have hprev01 : prevDate pC1 1 1 = none := by decide
  have hprev02 : prevDate pC1 2 1 = none := by decide
  have hprev03 : prevDate pC1 3 1 = none := by decide
  have hfit1 : fitAt singleOLS pC1 1 = (0, [2]) := by
    simp only [fitAt, hcs1]
    norm_num [singleOLS, List.sum_cons, List.sum_nil, List.zip]
  have hfit2 : fitAt singleOLS pC1 2 = (0, [1]) := by
    simp only [fitAt, hcs2]
    norm_num [singleOLS, List.sum_cons, List.sum_nil, List.zip]
  have hfind11 : (crossSection pC1 1).find? (fun r => r.code == 1)
      = some ⟨1, 1, [0], 1⟩ := by decide
  have hfind12 : (crossSection pC1 1).find? (fun r => r.code == 2)
      = some ⟨1, 2, [1], 0⟩ := by decide
  have hfind13 : (crossSection pC1 1).find? (fun r => r.code == 3)
      = some ⟨1, 3, [2], 5⟩ := by decide
  have hfind21 : (crossSection pC1 2).find? (fun r => r.code == 1)
      = some ⟨2, 1, [0], -1⟩ := by decide
  have hres11 : residOf singleOLS pC1 1 1 = some 1 := by
    simp only [residOf, hfind11, hfit1]
    norm_num [dotQ]
  have hres12 : residOf singleOLS pC1 1 2 = some (-2) := by
    simp only [residOf, hfind12, hfit1]
    norm_num [dotQ]
  have hres13 : residOf singleOLS pC1 1 3 = some 1 := by
    simp only [residOf, hfind13, hfit1]
    norm_num [dotQ]
  have hres21 : residOf singleOLS pC1 2 1 = some (-1) := by
    simp only [residOf, hfind21, hfit2]
    norm_num [dotQ]
  have hlag1 : laggedParamAt singleOLS pC1 1 2 = some ⟨1, 0, [2]⟩ := by
    simp [laggedParamAt_eq singleOLS pC1 1 2 1 hprev1, hres11, hfit1]
  have hlag2 : laggedParamAt singleOLS pC1 2 2 = some ⟨-2, 0, [2]⟩ := by
    simp [laggedParamAt_eq singleOLS pC1 2 2 1 hprev2, hres12, hfit1]
  have hlag3 : laggedParamAt singleOLS pC1 3 2 = some ⟨1, 0, [2]⟩ := by
    simp [laggedParamAt_eq singleOLS pC1 3 2 1 hprev3, hres13, hfit1]
  have hlagn1 : laggedParamAt singleOLS pC1 1 1 = none := by
    simp [laggedParamAt, hprev01]
  have hlagn2 : laggedParamAt singleOLS pC1 2 1 = none := by
    simp [laggedParamAt, hprev02]
  have hlagn3 : laggedParamAt singleOLS pC1 3 1 = none := by
    simp [laggedParamAt, hprev03]
  refine ⟨?_, ?_, by norm_num⟩
  · have hstep : common_regress singleOLS pC1
        = ([⟨1, 1, [0], 1⟩, ⟨1, 2, [1], 0⟩, ⟨1, 3, [2], 5⟩,
            ⟨2, 1, [0], -1⟩, ⟨2, 2, [1], 3⟩, ⟨2, 3, [2], 1⟩] : List RRow).filterMap
            (fun r => (laggedParamAt singleOLS pC1 r.code r.dt).map (fun fr =>
              (r.dt, r.code, fr.intercept + fr.resid + dotQ r.facs fr.betas))) := rfl
    rw [hstep]
    simp only [List.filterMap_cons, List.filterMap_nil, hlagn1, hlagn2, hlagn3,
      hlag1, hlag2, hlag3, Option.map_some', Option.map_none']
    norm_num [dotQ]
  · show (match prevDate pC1 1 2 with
      | none => none
      | some d' =>
        match residOf singleOLS pC1 2 1 with
        | none => none
        | some res =>
          some ((fitAt singleOLS pC1 d').1
            + dotQ [0] (fitAt singleOLS pC1 d').2 + res)) = some (-1 : ℚ)
    rw [hprev1, hres21]
    norm_num [hfit1, dotQ]

/-- C1 witness: the amended reconstruction theorem instantiated on `pC1`
at date 2, security 1, value 1. -/
theorem c1_witness :
    (2, 1, (1 : ℚ)) ∈ common_regress singleOLS pC1 ↔
      ∃ r ∈ pC1, r.dt = 2 ∧ r.code = 1 ∧
        ∃ d', prevDate pC1 1 2 = some d' ∧
          ∃ res, residOf singleOLS pC1 d' 1 = some res ∧
            (1 : ℚ) = (fitAt singleOLS pC1 d').1 + res
              + dotQ r.facs (fitAt singleOLS pC1 d').2 :=
  c1_regress_reconstruction singleOLS pC1 2 1 1

theorem retBumpAt_comm (T : ℕ) (f : RRow → ℚ) (r : RRow) :
    (if r.dt = T then { r with ret := f r } else r).dt = r.dt
    ∧ (if r.dt = T then { r with ret := f r } else r).code = r.code
    ∧ (if r.dt = T then { r with ret := f r } else r).facs = r.facs := by
  split <;> exact ⟨rfl, rfl, rfl⟩

/-- Replace the `ret` column at date `T` only (the change C6 quantifies
over): every row at date `T` gets an arbitrary new return, rows at other
dates are untouched. -/
def retBumpAt (T : ℕ) (f : RRow → ℚ) (r : RRow) : RRow :=
  if r.dt = T then { r with ret := f r } else r

theorem retBumpAt_dt (T : ℕ) (f : RRow → ℚ) (r : RRow) :
    (retBumpAt T f r).dt = r.dt := (retBumpAt_comm T f r).1

theorem retBumpAt_code (T : ℕ) (f : RRow → ℚ) (r : RRow) :
    (retBumpAt T f r).code = r.code := (retBumpAt_comm T f r).2.1

theorem retBumpAt_facs (T : ℕ) (f : RRow → ℚ) (r : RRow) :
    (retBumpAt T f r).facs = r.facs := (retBumpAt_comm T f r).2.2

theorem retBumpAt_id (T : ℕ) (f : RRow → ℚ) (r : RRow) (h : r.dt ≠ T) :
    retBumpAt T f r = r := by
  unfold retBumpAt
  rw [if_neg h]

theorem prevDate_retBumpAt (p : List RRow) (T : ℕ) (f : RRow → ℚ)
    (c d : ℕ) : prevDate (p.map (retBumpAt T f)) c d = prevDate p c d := by
  unfold prevDate
  rw [List.filter_map]
  have hpred : ((fun r : RRow => r.code == c && decide (r.dt < d)) ∘ retBumpAt T f)
      = (fun r : RRow => r.code == c && decide (r.dt < d)) := by
    funext r
    simp only [Function.comp]
    rw [retBumpAt_code, retBumpAt_dt]
  rw [hpred, List.map_map]
  have hdt : ((fun r : RRow => r.dt) ∘ retBumpAt T f) = (fun r : RRow => r.dt) := by
    funext r
    simp only [Function.comp]
    rw [retBumpAt_dt]
  rw [hdt]

theorem crossSection_retBumpAt (p : List RRow) (T : ℕ) (f : RRow → ℚ)
    (d : ℕ) (h : d ≠ T) :
    crossSection (p.map (retBumpAt T f)) d = crossSection p d := by
  unfold crossSection
  rw [List.filter_map]
  have hpred : ((fun r : RRow => r.dt == d) ∘ retBumpAt T f)
      = (fun r : RRow => r.dt == d) := by
    funext r
    simp only [Function.comp]
    rw [retBumpAt_dt]
  rw [hpred]
  have hid : (p.filter (fun r => r.dt == d)).map (retBumpAt T f)
      = (p.filter (fun r => r.dt == d)).map id := by
    apply List.map_congr_left
    intro r hr
    have := List.of_mem_filter hr
    simp only [beq_iff_eq] at this
    exact retBumpAt_id T f r (by omega)
  rw [hid, List.map_id]

/-- C6: changing the `ret` column at date `T` does not change the output of
`common_regress` at any date strictly before `T`: the set of reconstructed
(date, security, value) rows with date < T is identical across the two runs. -/
theorem c6_no_lookahead (ols : List (List ℚ × ℚ) → ℚ × List ℚ)
    (p : List RRow) (T : ℕ) (f : RRow → ℚ) (d c : ℕ) (v : ℚ) (hd : d < T) :
    ((d, c, v) ∈ common_regress ols (p.map (retBumpAt T f)) ↔
      (d, c, v) ∈ common_regress ols p) := by
  rw [c1_regress_reconstruction, c1_regress_reconstruction]
  have hfits : ∀ d', d' < T →
      fitAt ols (p.map (retBumpAt T f)) d' = fitAt ols p d' := by
    intro d' hd'
    unfold fitAt
    rw [crossSection_retBumpAt p T f d' (by omega)]
  have hres : ∀ d', d' < T → ∀ c',
      residOf ols (p.map (retBumpAt T f)) d' c' = residOf ols p d' c' := by
    intro d' hd' c'
    unfold residOf
    rw [crossSection_retBumpAt p T f d' (by omega), hfits d' hd']
  constructor
  · rintro ⟨r, hr, hdt, hcode, d', hprev, res, hresv, hv⟩
    rw [prevDate_retBumpAt] at hprev
    have hd' : d' < d := prevDate_lt p c d d' hprev
    obtain ⟨r0, hr0, hbump⟩ := List.mem_map.mp hr
    have hr0dt : r0.dt = d := by rw [← hdt, ← hbump, retBumpAt_dt]
    have hbid : retBumpAt T f r0 = r0 := retBumpAt_id T f r0 (by omega)
    rw [hbid] at hbump
    subst hbump
    refine ⟨r0, hr0, hr0dt, hcode, d', hprev, res, ?_, ?_⟩
    · rw [← hres d' (by omega) c]
      exact hresv
    · rw [← hfits d' (by omega)]
      exact hv
  · rintro ⟨r, hr, hdt, hcode, d', hprev, res, hresv, hv⟩
    have hd' : d' < d := prevDate_lt p c d d' hprev
    have hbid : retBumpAt T f r = r := retBumpAt_id T f r (by omega)
    refine ⟨r, ?_, hdt, hcode, d', ?_, res, ?_, ?_⟩
    · rw [← hbid]
      exact List.mem_map.mpr ⟨r, hr, rfl⟩
    · rw [prevDate_retBumpAt]
      exact hprev
    · rw [hres d' (by omega) c]
      exact hresv
    · rw [hfits d' (by omega)]
      exact hv

/-- A three-date extension of the one-factor panel, for evaluating C6
concretely. -/
def pC6 : List RRow :=
  pC1 ++ [⟨3, 1, [0], 1⟩, ⟨3, 2, [1], 0⟩, ⟨3, 3, [2], 1⟩]

/-- C6 witness: the no-look-ahead theorem applied to `pC6` with the returns
at date 3 all replaced by 99; the date-2 reconstruction (2, 1, 1) is in the
output of both runs. -/
theorem c6_witness :
    (2 < 3)
    ∧ (((2, 1, (1 : ℚ)) ∈
          common_regress singleOLS (pC6.map (retBumpAt 3 (fun _ => 99)))) ↔
        ((2, 1, (1 : ℚ)) ∈ common_regress singleOLS pC6)) :=
  ⟨by decide, c6_no_lookahead singleOLS pC6 3 (fun _ => 99) 2 1 1 (by decide)⟩

/-! The scoring engine (`score` / `dynamic_score`).  A scoring panel carries
its column-name schema plus rows of (date, code, cells); factor columns are
the set difference against the reserved names, re-derived per call. -/

inductive PyErr where
  | keyError (k : String)
  | valueError (msg : String)
deriving DecidableEq

inductive Effect where
  | printInvalidMethod (method : String) (valid : List String)
deriving DecidableEq

/-- Python dict dispatch wrapped in `try: return valid_method[method]()
except KeyError: print(...); raise`: an unknown key prints the
invalid-method message (with the list of valid names) and re-raises
KeyError(method); a KeyError escaping the selected strategy's own execution
is caught by the same handler, the same message is printed, and the original
error is re-raised unchanged.  Other errors pass through silently. -/
def tryDispatch {α : Type} (table : List (String × (Unit → Except PyErr α)))
    (method : String) : List Effect × Except PyErr α :=
  match table.find? (fun e => e.1 == method) with
  | none =>
    ([.printInvalidMethod method (table.map (fun e => e.1))],
      .error (.keyError method))
  | some e =>
    match e.2 () with
    | .error (.keyError k) =>
      ([.printInvalidMethod method (table.map (fun e' => e'.1))],
        .error (.keyError k))
    | r => ([], r)

structure SRow where
  dt : ℕ
  code : ℕ
  cells : List (Option ℚ)
deriving DecidableEq

structure SPanel where
  colNames : List String
  rows : List SRow
deriving DecidableEq

def reservedCols : List String := ["ret", "cap", "benchmark_returns", "group"]

/-- Byte-wise lexicographic order on char lists, the order Python's
`sorted` applies to the column-name strings. -/
def charListLe : List Char → List Char → Bool
  | [], _ => true
  | _ :: _, [] => false
  | a :: al, b :: bl =>
    if a.toNat < b.toNat then true
    else if b.toNat < a.toNat then false
    else charListLe al bl

def strLe (a b : String) : Bool := charListLe a.data b.data

def insertStr (c : String) : List String → List String
  | [] => [c]
  | d :: dl => if strLe c d then c :: d :: dl else d :: insertStr c dl

def sortStr : List String → List String
  | [] => []
  | c :: cl => insertStr c (sortStr cl)

/-- `sorted(set(columns) - {'ret', 'cap', 'benchmark_returns', 'group'})`. -/
def factorNames (p : SPanel) : List String :=
  sortStr ((p.colNames.dedup).filter (fun c => decide (c ∉ reservedCols)))

def rowLe (a b : SRow) : Bool :=
  decide (a.dt < b.dt) || (a.dt == b.dt && decide (a.code ≤ b.code))

def insertRow (r : SRow) : List SRow → List SRow
  | [] => [r]
  | s :: sl => if rowLe r s then r :: s :: sl else s :: insertRow r sl

/-- `fac_ret_data.sort_index()`: rows ordered by (date, code). -/
def sortRows : List SRow → List SRow
  | [] => []
  | r :: rl => insertRow r (sortRows rl)

def sortedRows (p : SPanel) : List SRow := sortRows p.rows

def datesOfS (p : SPanel) : List ℕ := ((sortedRows p).map (fun r => r.dt)).dedup

/-- One date's cross-section, in index order. -/
def csOf (p : SPanel) (d : ℕ) : List SRow :=
  (sortedRows p).filter (fun r => r.dt == d)

def colIdx (p : SPanel) (c : String) : Option ℕ := p.colNames.findIdx? (· == c)

def cellAt (r : SRow) (k : ℕ) : Option ℚ := r.cells.getD k none

/-- Values of column `c` over a list of rows.  The fallible accesses that can
raise KeyError in the source are modeled at their call sites; factor columns
are present by construction of `factorNames`. -/
def colCS (p : SPanel) (cs : List SRow) (c : String) : List (Option ℚ) :=
  match colIdx p c with
  | none => []
  | some k => cs.map (fun r => cellAt r k)

/-- Direction argument of `score`: one bool for all factors, or a per-factor
dict updating the all-False default (the default-from-CSV path reads the
external factor-detail table and is outside the embedded paths). -/
inductive DirSpec where
  | db (b : Bool)
  | dmap (m : List (String × Bool))

def dirFor (d : DirSpec) (f : String) : Bool :=
  match d with
  | .db b => b
  | .dmap m => (((m.find? (fun e => e.1 == f)).map (fun e => e.2)).getD false)

/-- Rank column of `score.get_rank` for factor `f` on one cross-section:
pandas rank with `ascending = not direction`, then the per-date missing
offset and `fillna(0.0)`. -/
def scoreRankCol (p : SPanel) (dir : DirSpec) (cs : List SRow) (f : String) :
    List ℕ :=
  scoreGetRankDate (!dirFor dir f) (colCS p cs f)

/-- Row `i`'s ranks across the (sorted) factor columns. -/
def ranksRow (p : SPanel) (dir : DirSpec) (cs : List SRow) (i : ℕ) : List ℕ :=
  (factorNames p).map (fun f => (scoreRankCol p dir cs f).getD i 0)

/-- `score.equal_weighted`: the weight matrix is 1 for every (date, factor),
its product with the rank frame broadcasts over securities, and the score is
`(rnk * weight).mean(axis=1)`: the mean of the row's ranks. -/
def equal_weighted_score (p : SPanel) (dir : DirSpec) : List (ℕ × ℕ × ℚ) :=
  (datesOfS p).flatMap (fun d =>
    (csOf p d).enum.map (fun e =>
      (d, e.2.code,
        ((ranksRow p dir (csOf p d) e.1).map (fun n => (n : ℚ))).sum
          / ((factorNames p).length : ℚ))))

/-- External collaborators of the scoring engine: the correlation of the
absent `metrics.information_coefficient` module, the float square root
inside a rolling std, and the strategy bodies that depend on externally
materialised tables (`context_weighted` in both variants) or on frame/series
label alignment not reached by any claim (`dynamic_score`'s ic and icir
bodies). -/
structure Ext where
  icCorr : List (Option ℚ) → List (Option ℚ) → Option ℚ
  sqrtQ : ℚ → ℚ
  contextW : SPanel → Except PyErr (List (ℕ × ℕ × ℚ))
  dynIcW : SPanel → Except PyErr (List (ℕ × ℕ × ℚ))
  dynIcirW : SPanel → Except PyErr (List (ℕ × ℕ × ℚ))
  dynContextW : SPanel → Except PyErr (List (ℕ × ℕ × ℚ))

/-- `get_ic`: per date, the information coefficient of each factor against
`ret`; raises KeyError('ret') when the panel has no `ret` column, exactly
where `frame['ret']` would. -/
def getIC (ext : Ext) (p : SPanel) : Except PyErr (List (List (Option ℚ))) :=
  if "ret" ∈ p.colNames then
    .ok ((datesOfS p).map (fun d =>
      (factorNames p).map (fun f =>
        ext.icCorr (colCS p (csOf p d) f) (colCS p (csOf p d) "ret"))))
  else .error (.keyError "ret")

def lastWindow {α : Type} (w : ℕ) (xl : List α) : List α :=
  (xl.reverse.take w).reverse

def colSlice (j : ℕ) (rows : List (List (Option ℚ))) : List (Option ℚ) :=
  rows.map (fun r => r.getD j none)

/-- The non-missing observations of a window. -/
def obsOf (xl : List (Option ℚ)) : List ℚ := xl.filterMap id

/-- Mean of the non-missing entries of a window (`min_periods=1`): NaN when
there is none. -/
def meanO (xl : List (Option ℚ)) : Option ℚ :=
  if (obsOf xl).length = 0 then none
  else some ((obsOf xl).sum / ((obsOf xl).length : ℚ))

/-- Mean of a plain observation list. -/
def meanQ (vl : List ℚ) : ℚ := vl.sum / (vl.length : ℚ)

/-- Sample variance (ddof=1) of the non-missing entries; NaN below 2
observations. -/
def sampleVarO (xl : List (Option ℚ)) : Option ℚ :=
  if (obsOf xl).length < 2 then none
  else some (((obsOf xl).map (fun v =>
      (v - meanQ (obsOf xl)) * (v - meanQ (obsOf xl)))).sum
    / (((obsOf xl).length : ℚ) - 1))

/-- Rolling std: the (external float) square root of the rolling sample
variance. -/
def stdO (sq : ℚ → ℚ) (xl : List (Option ℚ)) : Option ℚ :=
  (sampleVarO xl).map sq

/-- `rolling(window, min_periods=1)` applied columnwise to a date × factor
matrix: row `t` sees the last `min(t+1, w)` rows; `k` is the column count. -/
def rollingApply (k w : ℕ) (f : List (Option ℚ) → Option ℚ)
    (rows : List (List (Option ℚ))) : List (List (Option ℚ)) :=
  (List.range rows.length).map (fun t =>
    (List.range k).map (fun j => f (colSlice j (lastWindow w (rows.take (t + 1))))))

def absRow (row : List (Option ℚ)) : List (Option ℚ) :=
  row.map (Option.map (fun v => |v|))

/-- Normalize one date's contributions to fractions of their skipna sum
(`frame.div(frame.sum(axis=1), axis='index')`).  A zero sum is a division by
zero, which floats turn into non-finite values; modeled as missing. -/
def normalizeRow (row : List (Option ℚ)) : List (Option ℚ) :=
  let s := sumO row
  row.map (fun o => o.bind (fun x => if s = 0 then none else some (x / s)))

/-- `ic_weighted` contributions: rolling mean (window `w`, min_periods 1) of
the absolute IC; one row per date, one column per factor (`k` factors). -/
def icContrib (w k : ℕ) (ic : List (List (Option ℚ))) :
    List (List (Option ℚ)) :=
  rollingApply k w meanO (ic.map absRow)

def icWeights (w k : ℕ) (ic : List (List (Option ℚ))) :
    List (List (Option ℚ)) :=
  (icContrib w k ic).map normalizeRow

/-- `rolling_std.iloc[0,:] = 1`. -/
def setFirstRowOnes (k : ℕ) : List (List (Option ℚ)) → List (List (Option ℚ))
  | [] => []
  | _ :: rest => (List.replicate k (some 1)) :: rest

/-- Missing-propagating elementwise division; a zero denominator yields a
non-finite float, modeled as missing. -/
def divO : Option ℚ → Option ℚ → Option ℚ
  | some a, some b => if b = 0 then none else some (a / b)
  | _, _ => none

/-- `icir_weighted` contributions: rolling mean of absolute IC over its
rolling std, the first date's std set to 1. -/
def icirContrib (sq : ℚ → ℚ) (w k : ℕ) (ic : List (List (Option ℚ))) :
    List (List (Option ℚ)) :=
  List.zipWith (fun mr sr => List.zipWith divO mr sr)
    (rollingApply k w meanO (ic.map absRow))
    (setFirstRowOnes k (rollingApply k w (stdO sq) (ic.map absRow)))

def icirWeights (sq : ℚ → ℚ) (w k : ℕ) (ic : List (List (Option ℚ))) :
    List (List (Option ℚ)) :=
  (icirContrib sq w k ic).map normalizeRow

/-- Modelled from the spec: `add_group` (imported from the absent `analysis`
module) buckets a date's securities by score rank (first-occurrence tie
break, descending by default, missing at the bottom) into `num_group`
contiguous groups "Q01".. with sizes `N // num_group` plus one for the first
`N mod num_group`; corroborated by `cut_group` in `general/util.py`.  Only
what `ret_weighted` consumes is needed: the mean forward return of the top
group "Q01", the rows whose descending first-rank is at most the first
group's size. -/
def q01MeanRet (scores : List ℚ) (rets : List (Option ℚ)) (k : ℕ) : Option ℚ :=
  let e1 := scores.length / k + min 1 (scores.length % k)
  let sc : List (Option ℚ) := scores.map some
  meanO (((List.finRange sc.length).filter
    (fun i => decide (fillRank 0 (rankAt false sc i) ≤ e1))).map
      (fun i => rets.getD (i : ℕ) none))

/-- `score.ret_weighted` returns matrix: per date and factor, the mean
forward return of that factor's top rank group; the group count is hardcoded
to 5 in the source (`add_group(data, num_group=5)`). -/
def retContrib (p : SPanel) (dir : DirSpec) : List (List (Option ℚ)) :=
  (datesOfS p).map (fun d =>
    (factorNames p).map (fun f =>
      q01MeanRet ((scoreRankCol p dir (csOf p d) f).map (fun n => (n : ℚ)))
        (colCS p (csOf p d) "ret") 5))

def retWeights (p : SPanel) (dir : DirSpec) (w : ℕ) :
    List (List (Option ℚ)) :=
  (rollingApply (factorNames p).length w meanO (retContrib p dir)).map
    normalizeRow

/-- `(rank * weight).sum(axis=1)` joined back onto the panel: per row, the
skipna sum over factors of the rank times that date's factor weight. -/
def weightedScore (p : SPanel) (dir : DirSpec)
    (weights : List (List (Option ℚ))) : List (ℕ × ℕ × ℚ) :=
  ((datesOfS p).zip weights).flatMap (fun dw =>
    (csOf p dw.1).enum.map (fun e =>
      (dw.1, e.2.code,
        sumO (List.zipWith (fun n wo => Option.map (fun x => (n : ℚ) * x) wo)
          (ranksRow p dir (csOf p dw.1) e.1) dw.2))))

def equal_weighted_strat (p : SPanel) (dir : DirSpec) :
    Except PyErr (List (ℕ × ℕ × ℚ)) :=
  .ok (equal_weighted_score p dir)

def ic_weighted_strat (ext : Ext) (p : SPanel) (dir : DirSpec) (w : ℕ) :
    Except PyErr (List (ℕ × ℕ × ℚ)) := do
  let ic ← getIC ext p
  .ok (weightedScore p dir (icWeights w (factorNames p).length ic))

def icir_weighted_strat (ext : Ext) (p : SPanel) (dir : DirSpec) (w : ℕ) :
    Except PyErr (List (ℕ × ℕ × ℚ)) := do
  let ic ← getIC ext p
  .ok (weightedScore p dir (icirWeights ext.sqrtQ w (factorNames p).length ic))

/-- `score.ret_weighted`: the per-factor grouping reads the `ret` column
(`data.groupby(...)['ret']`), raising KeyError('ret') when absent. -/
def ret_weighted_strat (p : SPanel) (dir : DirSpec) (w : ℕ) :
    Except PyErr (List (ℕ × ℕ × ℚ)) :=
  if "ret" ∈ p.colNames then .ok (weightedScore p dir (retWeights p dir w))
  else .error (.keyError "ret")

def scoreValidMethods : List String :=
  ["equal_weighted", "ic_weighted", "icir_weighted", "ret_weighted",
   "context_weighted"]

/-- `score`: factor-set check (ValueError when empty), then string-keyed
dispatch of the five weighting strategies inside the `try/except KeyError`
handler. -/
def score (ext : Ext) (p : SPanel) (method : String) (dir : DirSpec)
    (score_window num_group : ℕ) :
    List Effect × Except PyErr (List (ℕ × ℕ × ℚ)) :=
  if factorNames p = [] then
    ([], .error (.valueError "fac_ret_data must have at least 1 factor, got 0."))
  else
    tryDispatch
      [("equal_weighted", fun _ => equal_weighted_strat p dir),
       ("ic_weighted", fun _ => ic_weighted_strat ext p dir score_window),
       ("icir_weighted", fun _ => icir_weighted_strat ext p dir score_window),
       ("ret_weighted", fun _ => ret_weighted_strat p dir score_window),
       ("context_weighted", fun _ => ext.contextW p)] method

theorem tryDispatch_not_mem {α : Type}
    (table : List (String × (Unit → Except PyErr α))) (method : String)
    (hm : method ∉ table.map (fun e => e.1)) :
    tryDispatch table method
      = ([.printInvalidMethod method (table.map (fun e => e.1))],
          .error (.keyError method)) := by
  unfold tryDispatch
  have hfind : table.find? (fun e => e.1 == method) = none := by
    rw [List.find?_eq_none]
    intro e he heq
    rw [beq_iff_eq] at heq
    exact hm (heq ▸ List.mem_map_of_mem (fun e' => e'.1) he)
  rw [hfind]

/-- C8: for a panel with at least one factor column and a method name
outside {equal_weighted, ic_weighted, icir_weighted, ret_weighted,
context_weighted}, `score` fails with KeyError(method) and the surfaced
message enumerates the five valid method names. -/
theorem c8_invalid_method (ext : Ext) (p : SPanel) (dir : DirSpec)
    (w k : ℕ) (method : String)
    (hfac : factorNames p ≠ []) (hm : method ∉ scoreValidMethods) :
    score ext p method dir w k
      = ([.printInvalidMethod method scoreValidMethods],
          .error (.keyError method)) := by
  unfold score
  rw [if_neg hfac]
  exact tryDispatch_not_mem _ method hm

/-- A trivial instantiation of the external collaborators, for concrete
evaluations. -/
def extTriv : Ext where
  icCorr := fun _ _ => none
  sqrtQ := id
  contextW := fun _ => .error (.valueError "external context table")
  dynIcW := fun _ => .error (.valueError "external")
  dynIcirW := fun _ => .error (.valueError "external")
  dynContextW := fun _ => .error (.valueError "external")

def csD1 : List SRow :=
  [⟨1, 1, [some 3, some 10, some 0]⟩, ⟨1, 2, [some 1, some 10, some 0]⟩,
   ⟨1, 3, [some 2, some 10, some 0]⟩]

def csD2 : List SRow :=
  [⟨2, 1, [some 1, some 10, some 0]⟩, ⟨2, 2, [some 2, some 10, some 0]⟩,
   ⟨2, 3, [some 3, some 10, some 0]⟩]

/-- The 2-date, 3-security, single-factor panel of the end-to-end
equal-weight scenario: factor M1 is (3, 1, 2) on date 1 for securities
(1, 2, 3) = (A, B, C). -/
def pScore : SPanel := ⟨["M1", "cap", "ret"], csD1 ++ csD2⟩

/-- C8 witness: the invalid-method theorem applied to `pScore` and the
method name "foo". -/
theorem c8_witness :
    score extTriv pScore "foo" (.db false) 12 5
      = ([.printInvalidMethod "foo" scoreValidMethods],
          .error (.keyError "foo")) :=
  c8_invalid_method extTriv pScore (.db false) 12 5 "foo" (by decide) (by decide)

/-- C10 (amended): when the selected method IS in the valid set but the
strategy's own execution fails with a KeyError, the try/except handler
around the dispatch CATCHES it, prints the invalid-method message, and then
re-raises the original KeyError unchanged: the error still propagates with
its own key, but it IS re-reported as an invalid-method error. -/
theorem c10_inner_keyerror {α : Type}
    (table : List (String × (Unit → Except PyErr α))) (method : String)
    (e : String × (Unit → Except PyErr α)) (k : String)
    (hfind : table.find? (fun e' => e'.1 == method) = some e)
    (hrun : e.2 () = .error (.keyError k)) :
    tryDispatch table method
      = ([.printInvalidMethod method (table.map (fun e' => e'.1))],
          .error (.keyError k)) := by
  unfold tryDispatch
  rw [hfind]
  show (match e.2 () with
    | Except.error (PyErr.keyError k') =>
      ([Effect.printInvalidMethod method
          (table.map (fun e' : String × (Unit → Except PyErr α) => e'.1))],
        Except.error (PyErr.keyError k'))
    | r => ([], r)) = _
  rw [hrun]

/-- A panel with one factor column and no `ret` column. -/
def pNoRet : SPanel :=
  ⟨["M1", "cap"], [⟨1, 1, [some 3, some 10]⟩, ⟨1, 2, [some 1, some 10]⟩]⟩

/-- C10 counterexample: calling `score` with the VALID method name
'ic_weighted' on a panel without a `ret` column makes the strategy body
raise KeyError('ret'); the dispatch handler catches it and prints the
invalid-method report (so the printed-effect list is not empty, contrary to
the claim that the inner KeyError is not caught and re-reported), before
re-raising the original KeyError('ret'). -/
theorem c10_counterexample :
    score extTriv pNoRet "ic_weighted" (.db false) 12 5
      = ([.printInvalidMethod "ic_weighted" scoreValidMethods],
          .error (.keyError "ret"))
    ∧ [Effect.printInvalidMethod "ic_weighted" scoreValidMethods]
        ≠ ([] : List Effect) := by
  refine ⟨rfl, by decide⟩

/-- C10 witness: the amended dispatch theorem applied to `score`'s own
strategy table on the no-`ret` panel, at method 'ic_weighted', whose body
fails with KeyError('ret'). -/
theorem c10_witness :
    tryDispatch
        [("equal_weighted", fun _ => equal_weighted_strat pNoRet (.db false)),
         ("ic_weighted", fun _ => ic_weighted_strat extTriv pNoRet (.db false) 12),
         ("icir_weighted", fun _ => icir_weighted_strat extTriv pNoRet (.db false) 12),
         ("ret_weighted", fun _ => ret_weighted_strat pNoRet (.db false) 12),
         ("context_weighted", fun _ => extTriv.contextW pNoRet)] "ic_weighted"
      = ([.printInvalidMethod "ic_weighted" scoreValidMethods],
          .error (.keyError "ret")) :=
  c10_inner_keyerror _ "ic_weighted"
    ("ic_weighted", fun _ => ic_weighted_strat extTriv pNoRet (.db false) 12)
    "ret" rfl rfl

theorem scoreEqualPScore :
    score extTriv pScore "equal_weighted" (.db false) 12 5
      = ([], .ok [(1, 1, (3 : ℚ)), (1, 2, 1), (1, 3, 2),
                  (2, 1, 1), (2, 2, 2), (2, 3, 3)]) := by
  have hval : equal_weighted_score pScore (.db false)
      = [(1, 1, (3 : ℚ)), (1, 2, 1), (1, 3, 2),
         (2, 1, 1), (2, 2, 2), (2, 3, 3)] := by
    have hdates : datesOfS pScore = [1, 2] := by decide
    have hc1 : csOf pScore 1 = csD1 := by decide
    have hc2 : csOf pScore 2 = csD2 := by decide
    have hfn : factorNames pScore = ["M1"] := by decide
    have hrr10 : ∀ i r, ranksRow pScore (.db false) csD1 i = [r] →
        ranksRow pScore (.db false)
          [⟨1, 1, [some 3, some 10, some 0]⟩, ⟨1, 2, [some 1, some 10, some 0]⟩,
           ⟨1, 3, [some 2, some 10, some 0]⟩] i = [r] := fun _ _ h => h
    have hrr20 : ∀ i r, ranksRow pScore (.db false) csD2 i = [r] →
        ranksRow pScore (.db false)
          [⟨2, 1, [some 1, some 10, some 0]⟩, ⟨2, 2, [some 2, some 10, some 0]⟩,
           ⟨2, 3, [some 3, some 10, some 0]⟩] i = [r] := fun _ _ h => h
    unfold equal_weighted_score
    rw [hdates]
    simp only [List.flatMap_cons, List.flatMap_nil, List.append_nil]
    rw [hc1, hc2]
    simp only [csD1, csD2, List.enum, List.enumFrom, List.map_cons, List.map_nil]
    rw [hfn]
    norm_num [hrr10 0 3 (by decide), hrr10 1 1 (by decide), hrr10 2 2 (by decide),
      hrr20 0 1 (by decide), hrr20 1 2 (by decide), hrr20 2 3 (by decide)]
  show ([], Except.ok (equal_weighted_score pScore (.db false))) = _
  rw [hval]

/-- C4 (amended): on the 2-date, 3-security panel with single factor values
(3, 1, 2) on date 1 under the descending-is-better default (direction =
False), the equal-weight score on date 1, in security order (A, B, C), is
(3, 1, 2): the LARGEST value receives the HIGHEST rank (pandas is called
with `ascending = not direction`), and with a single factor the score equals
the rank directly. -/
theorem c4_equal_weight_scenario :
    score extTriv pScore "equal_weighted" (.db false) 12 5
      = ([], .ok [(1, 1, (3 : ℚ)), (1, 2, 1), (1, 3, 2),
                  (2, 1, 1), (2, 2, 2), (2, 3, 3)]) :=
  scoreEqualPScore

/-- C4 counterexample: the date-1 scores in security order are (3, 1, 2),
not the claimed (1, 3, 2): with direction=False (descending-is-better),
security A's value 3 gets rank/score 3, not 1. -/
theorem c4_counterexample :
    score extTriv pScore "equal_weighted" (.db false) 12 5
        = ([], .ok [(1, 1, (3 : ℚ)), (1, 2, 1), (1, 3, 2),
                    (2, 1, 1), (2, 2, 2), (2, 3, 3)])
      ∧ [(3 : ℚ), 1, 2] ≠ [1, 3, 2] :=
  ⟨scoreEqualPScore, by norm_num⟩

/-! Weight-normalization facts (C3). -/

/-- A cell that is missing or holds a nonnegative value. -/
def Onneg (o : Option ℚ) : Prop := ∀ x, o = some x → 0 ≤ x

theorem sumO_cons_none (l : List (Option ℚ)) : sumO (none :: l) = sumO l := rfl

theorem sumO_cons_some (v : ℚ) (l : List (Option ℚ)) :
    sumO (some v :: l) = v + sumO l := rfl

theorem sumO_nonneg (row : List (Option ℚ)) (h : ∀ o ∈ row, Onneg o) :
    0 ≤ sumO row := by
  induction row with
  | nil => simp [sumO]
  | cons a l ih =>
    have hl := ih (fun o ho => h o (List.mem_cons_of_mem a ho))
    cases a with
    | none => rw [sumO_cons_none]; exact hl
    | some v =>
      rw [sumO_cons_some]
      exact add_nonneg (h (some v) (List.mem_cons_self _ _) v rfl) hl

theorem sumO_pos (row : List (Option ℚ)) (h : ∀ o ∈ row, Onneg o)
    (hx : ∃ o ∈ row, ∃ x, o = some x ∧ x ≠ 0) : 0 < sumO row := by
  induction row with
  | nil =>
    obtain ⟨o, ho, _⟩ := hx
    cases ho
  | cons a l ih =>
    obtain ⟨o, ho, x, hox, hxne⟩ := hx
    have hl0 : 0 ≤ sumO l := sumO_nonneg l (fun o' ho' => h o' (List.mem_cons_of_mem a ho'))
    rcases List.mem_cons.mp ho with rfl | ho'
    · subst hox
      have hv : 0 < x :=
        lt_of_le_of_ne (h (some x) (List.mem_cons_self _ _) x rfl) (Ne.symm hxne)
      rw [sumO_cons_some]
      exact add_pos_of_pos_of_nonneg hv hl0
    · have hpos := ih (fun o' ho' => h o' (List.mem_cons_of_mem a ho'))
        ⟨o, ho', x, hox, hxne⟩
      cases a with
      | none => rw [sumO_cons_none]; exact hpos
      | some v =>
        rw [sumO_cons_some]
        exact add_pos_of_nonneg_of_pos (h (some v) (List.mem_cons_self _ _) v rfl) hpos

theorem sumO_map_div (row : List (Option ℚ)) (s : ℚ) (hs : s ≠ 0) :
    sumO (row.map (fun o => o.bind (fun x => if s = 0 then none else some (x / s))))
      = sumO row / s := by
  induction row with
  | nil => simp [sumO]
  | cons a l ih =>
    cases a with
    | none =>
      rw [List.map_cons]
      show sumO (none :: _) = _
      rw [sumO_cons_none, ih, sumO_cons_none]
    | some v =>
      rw [List.map_cons]
      show sumO ((if s = 0 then none else some (v / s)) :: _) = _
      rw [if_neg hs, sumO_cons_some, ih, sumO_cons_some, add_div]

theorem sumO_normalizeRow (row : List (Option ℚ)) (hs : sumO row ≠ 0) :
    sumO (normalizeRow row) = 1 := by
  show sumO (row.map (fun o =>
    o.bind (fun x => if sumO row = 0 then none else some (x / sumO row)))) = 1
  rw [sumO_map_div row (sumO row) hs, div_self hs]

theorem sumO_allZero (row : List (Option ℚ))
    (h : ∀ o ∈ row, o = none ∨ o = some 0) : sumO row = 0 := by
  induction row with
  | nil => rfl
  | cons a l ih =>
    have hl := ih (fun o ho => h o (List.mem_cons_of_mem a ho))
    rcases h a (List.mem_cons_self _ _) with rfl | rfl
    · rw [sumO_cons_none]; exact hl
    · rw [sumO_cons_some, hl, add_zero]

theorem normalizeRow_allZero (row : List (Option ℚ))
    (h : ∀ o ∈ row, o = none ∨ o = some 0) :
    ∀ o ∈ normalizeRow row, o = none := by
  intro o ho
  have hs : sumO row = 0 := sumO_allZero row h
  unfold normalizeRow at ho
  obtain ⟨a, _, rfl⟩ := List.mem_map.mp ho
  cases a with
  | none => rfl
  | some v => simp [hs]

theorem onneg_getD (r : List (Option ℚ)) (j : ℕ)
    (h : ∀ o ∈ r, Onneg o) : Onneg (r.getD j none) := by
  rw [List.getD_eq_getElem?_getD]
  cases hj : r[j]? with
  | none => intro x hx; cases hx
  | some o =>
    have hm : o ∈ r := List.getElem?_mem hj
    simpa using h o hm

theorem onneg_absRow (row : List (Option ℚ)) :
    ∀ o ∈ absRow row, Onneg o := by
  intro o ho
  unfold absRow at ho
  obtain ⟨a, _, rfl⟩ := List.mem_map.mp ho
  cases a with
  | none => intro x hx; cases hx
  | some v =>
    intro x hx
    simp only [Option.map_some'] at hx
    cases hx
    exact abs_nonneg v

theorem mem_obsOf (xl : List (Option ℚ)) (v : ℚ) (hv : v ∈ obsOf xl) :
    some v ∈ xl := by
  obtain ⟨o, ho, hvo⟩ := List.mem_filterMap.mp hv
  simpa [show o = some v from hvo] using ho

theorem onneg_meanO (xl : List (Option ℚ)) (h : ∀ o ∈ xl, Onneg o) :
    Onneg (meanO xl) := by
  intro x hx
  unfold meanO at hx
  split at hx
  · cases hx
  · injection hx with hx
    subst hx
    apply div_nonneg
    · apply List.sum_nonneg
      intro v hv
      exact h (some v) (mem_obsOf xl v hv) v rfl
    · exact Nat.cast_nonneg _

theorem onneg_stdO (sq : ℚ → ℚ) (hsq : ∀ x, 0 ≤ x → 0 ≤ sq x)
    (xl : List (Option ℚ)) : Onneg (stdO sq xl) := by
  intro x hx
  unfold stdO sampleVarO at hx
  split at hx
  · cases hx
  · simp only [Option.map_some'] at hx
    injection hx with hx
    subst hx
    apply hsq
    apply div_nonneg
    · apply List.sum_nonneg
      intro v hv
      obtain ⟨u, _, rfl⟩ := List.mem_map.mp hv
      exact mul_self_nonneg _
    · have hlen : 2 ≤ (obsOf xl).length := by omega
      have : (2 : ℚ) ≤ ((obsOf xl).length : ℚ) := by exact_mod_cast hlen
      linarith

theorem onneg_divO (a b : Option ℚ) (ha : Onneg a) (hb : Onneg b) :
    Onneg (divO a b) := by
  intro x hx
  cases a with
  | none => cases hx
  | some va =>
    cases b with
    | none => cases hx
    | some vb =>
      by_cases h0 : vb = 0
      · simp [divO, h0] at hx
      · simp [divO, h0] at hx
        subst hx
        exact div_nonneg (ha va rfl) (hb vb rfl)

theorem onneg_rollingApply (k w : ℕ) (f : List (Option ℚ) → Option ℚ)
    (rows : List (List (Option ℚ)))
    (hrows : ∀ r ∈ rows, ∀ o ∈ r, Onneg o)
    (hf : ∀ xl, (∀ o ∈ xl, Onneg o) → Onneg (f xl)) :
    ∀ row ∈ rollingApply k w f rows, ∀ o ∈ row, Onneg o := by
  intro row hrow o ho
  unfold rollingApply at hrow
  obtain ⟨t, _, rfl⟩ := List.mem_map.mp hrow
  obtain ⟨j, _, rfl⟩ := List.mem_map.mp ho
  apply hf
  intro o' ho'
  unfold colSlice at ho'
  obtain ⟨r, hr, rfl⟩ := List.mem_map.mp ho'
  apply onneg_getD
  apply hrows
  unfold lastWindow at hr
  have h1 : r ∈ (rows.take (t + 1)).reverse.take w := List.mem_reverse.mp hr
  have h2 : r ∈ (rows.take (t + 1)).reverse := List.take_subset w _ h1
  have h3 : r ∈ rows.take (t + 1) := List.mem_reverse.mp h2
  exact List.take_subset _ _ h3

theorem onneg_absMatrix (ic : List (List (Option ℚ))) :
    ∀ r ∈ ic.map absRow, ∀ o ∈ r, Onneg o := by
  intro r hr
  obtain ⟨r0, _, rfl⟩ := List.mem_map.mp hr
  exact onneg_absRow r0

theorem mem_zipWith {α β γ : Type} (f : α → β → γ) :
    ∀ (l1 : List α) (l2 : List β) (c : γ), c ∈ List.zipWith f l1 l2 →
      ∃ a ∈ l1, ∃ b ∈ l2, c = f a b
  | a :: l1, b :: l2, c, hc => by
    rcases List.mem_cons.mp hc with rfl | h
    · exact ⟨a, List.mem_cons_self _ _, b, List.mem_cons_self _ _, rfl⟩
    · obtain ⟨a', ha, b', hb, rfl⟩ := mem_zipWith f l1 l2 _ h
      exact ⟨a', List.mem_cons_of_mem _ ha, b', List.mem_cons_of_mem _ hb, rfl⟩
  | [], _, c, hc => by cases hc
  | _ :: _, [], c, hc => by cases hc

theorem onneg_setFirstRowOnes (k : ℕ) (l : List (List (Option ℚ)))
    (hl : ∀ r ∈ l, ∀ o ∈ r, Onneg o) :
    ∀ r ∈ setFirstRowOnes k l, ∀ o ∈ r, Onneg o := by
  intro r hr
  cases l with
  | nil => cases hr
  | cons a rest =>
    unfold setFirstRowOnes at hr
    rcases List.mem_cons.mp hr with rfl | hr'
    · intro o ho
      have := List.eq_of_mem_replicate ho
      subst this
      intro x hx
      injection hx with hx
      subst hx
      norm_num
    · exact hl r (List.mem_cons_of_mem a hr')

theorem onneg_icContrib (w k : ℕ) (ic : List (List (Option ℚ))) :
    ∀ row ∈ icContrib w k ic, ∀ o ∈ row, Onneg o :=
  onneg_rollingApply k w meanO (ic.map absRow) (onneg_absMatrix ic) onneg_meanO

theorem onneg_icirContrib (sq : ℚ → ℚ) (hsq : ∀ x, 0 ≤ x → 0 ≤ sq x)
    (w k : ℕ) (ic : List (List (Option ℚ))) :
    ∀ row ∈ icirContrib sq w k ic, ∀ o ∈ row, Onneg o := by
  intro row hrow o ho
  unfold icirContrib at hrow
  obtain ⟨mr, hmr, sr, hsr, rfl⟩ := mem_zipWith _ _ _ row hrow
  obtain ⟨a, hma, b, hsb, rfl⟩ := mem_zipWith divO mr sr o ho
  apply onneg_divO
  · exact onneg_rollingApply k w meanO (ic.map absRow) (onneg_absMatrix ic)
      onneg_meanO mr hmr a hma
  · refine onneg_setFirstRowOnes k _ ?_ sr hsr b hsb
    exact onneg_rollingApply k w (stdO sq) (ic.map absRow) (onneg_absMatrix ic)
      (fun xl _ => onneg_stdO sq hsq xl)

/-- C3 (amended): for ic_weighted and icir_weighted, whose contributions are
built from ABSOLUTE ICs and are therefore nonnegative, the per-date weight
row sums to 1 whenever at least one contribution is non-zero and non-NaN,
and is entirely NaN when all contributions are zero or NaN.  For
ret_weighted the contributions are signed mean returns: the weights sum to 1
whenever the per-date contribution SUM is non-zero, and all-zero/NaN rows
yield NaN weights; when non-zero contributions cancel to a zero sum the
normalization divides by zero and the weights are NaN, not a unit vector
(see the counterexample). -/
theorem c3_weight_normalization :
    (∀ (w k : ℕ) (ic : List (List (Option ℚ))), ∀ row ∈ icContrib w k ic,
        normalizeRow row ∈ icWeights w k ic
      ∧ ((∃ o ∈ row, ∃ x, o = some x ∧ x ≠ 0) → sumO (normalizeRow row) = 1)
      ∧ ((∀ o ∈ row, o = none ∨ o = some 0) → ∀ o ∈ normalizeRow row, o = none))
    ∧ (∀ (sq : ℚ → ℚ), (∀ x, 0 ≤ x → 0 ≤ sq x) →
        ∀ (w k : ℕ) (ic : List (List (Option ℚ))), ∀ row ∈ icirContrib sq w k ic,
        normalizeRow row ∈ icirWeights sq w k ic
      ∧ ((∃ o ∈ row, ∃ x, o = some x ∧ x ≠ 0) → sumO (normalizeRow row) = 1)
      ∧ ((∀ o ∈ row, o = none ∨ o = some 0) → ∀ o ∈ normalizeRow row, o = none))
    ∧ (∀ (p : SPanel) (dir : DirSpec) (w : ℕ),
        ∀ row ∈ rollingApply (factorNames p).length w meanO (retContrib p dir),
        normalizeRow row ∈ retWeights p dir w
      ∧ (sumO row ≠ 0 → sumO (normalizeRow row) = 1)
      ∧ ((∀ o ∈ row, o = none ∨ o = some 0) → ∀ o ∈ normalizeRow row, o = none)) := by
  refine ⟨?_, ?_, ?_⟩
  · intro w k ic row hrow
    refine ⟨List.mem_map_of_mem _ hrow, ?_, normalizeRow_allZero row⟩
    intro hx
    exact sumO_normalizeRow row
      (ne_of_gt (sumO_pos row (onneg_icContrib w k ic row hrow) hx))
  · intro sq hsq w k ic row hrow
    refine ⟨List.mem_map_of_mem _ hrow, ?_, normalizeRow_allZero row⟩
    intro hx
    exact sumO_normalizeRow row
      (ne_of_gt (sumO_pos row (onneg_icirContrib sq hsq w k ic row hrow) hx))
  · intro p dir w row hrow
    exact ⟨List.mem_map_of_mem _ hrow,
      fun hs => sumO_normalizeRow row hs, normalizeRow_allZero row⟩

theorem meanO_single (v : ℚ) : meanO [some v] = some v := by
  show (if ([v] : List ℚ).length = 0 then none
    else some (([v] : List ℚ).sum / ((([v] : List ℚ).length : ℚ)))) = some v
  norm_num

/-- One date, five securities, two factors: M1 = (5,4,3,2,1),
M2 = (1,2,3,4,5), forward returns (1,0,0,0,-1).  Under direction=False the
top rank group of M1 is security 1 (return 1) and of M2 security 5
(return -1). -/
def csR : List SRow :=
  [⟨1, 1, [some 5, some 1, some 1, some 1]⟩,
   ⟨1, 2, [some 4, some 2, some 0, some 1]⟩,
   ⟨1, 3, [some 3, some 3, some 0, some 1]⟩,
   ⟨1, 4, [some 2, some 4, some 0, some 1]⟩,
   ⟨1, 5, [some 1, some 5, some (-1), some 1]⟩]

def pR : SPanel := ⟨["M1", "M2", "ret", "cap"], csR⟩

theorem retContrib_pR :
    retContrib pR (.db false) = [[some (1 : ℚ), some (-1)]] := by
  have hd : datesOfS pR = [1] := by decide
  have hcs : csOf pR 1 = csR := by decide
  have hfn : factorNames pR = ["M1", "M2"] := by decide
  have hrank1 : (scoreRankCol pR (.db false) csR "M1").map (fun n => (n : ℚ))
      = [5, 4, 3, 2, 1] := by decide
  have hrank2 : (scoreRankCol pR (.db false) csR "M2").map (fun n => (n : ℚ))
      = [1, 2, 3, 4, 5] := by decide
  have hret : colCS pR csR "ret"
      = [some 1, some 0, some 0, some 0, some (-1)] := by decide
  have hq1 : q01MeanRet [(5 : ℚ), 4, 3, 2, 1]
      [some 1, some 0, some 0, some 0, some (-1)] 5 = some 1 := by
    have hfilt : (((List.finRange (([(5 : ℚ), 4, 3, 2, 1].map some)).length).filter
        (fun i => decide (fillRank 0 (rankAt false ([(5 : ℚ), 4, 3, 2, 1].map some) i) ≤ 1))).map
          (fun i => ([some (1 : ℚ), some 0, some 0, some 0, some (-1)]
            : List (Option ℚ)).getD (i : ℕ) none)) = [some 1] := by decide
    show meanO ((((List.finRange (([(5 : ℚ), 4, 3, 2, 1].map some)).length).filter
        (fun i => decide (fillRank 0 (rankAt false ([(5 : ℚ), 4, 3, 2, 1].map some) i) ≤ 1))).map
          (fun i => ([some (1 : ℚ), some 0, some 0, some 0, some (-1)]
            : List (Option ℚ)).getD (i : ℕ) none))) = some 1
    rw [hfilt, meanO_single]
  have hq2 : q01MeanRet [(1 : ℚ), 2, 3, 4, 5]
      [some 1, some 0, some 0, some 0, some (-1)] 5 = some (-1) := by
    have hfilt : (((List.finRange (([(1 : ℚ), 2, 3, 4, 5].map some)).length).filter
        (fun i => decide (fillRank 0 (rankAt false ([(1 : ℚ), 2, 3, 4, 5].map some) i) ≤ 1))).map
          (fun i => ([some (1 : ℚ), some 0, some 0, some 0, some (-1)]
            : List (Option ℚ)).getD (i : ℕ) none)) = [some (-1)] := by decide
    show meanO ((((List.finRange (([(1 : ℚ), 2, 3, 4, 5].map some)).length).filter
        (fun i => decide (fillRank 0 (rankAt false ([(1 : ℚ), 2, 3, 4, 5].map some) i) ≤ 1))).map
          (fun i => ([some (1 : ℚ), some 0, some 0, some 0, some (-1)]
            : List (Option ℚ)).getD (i : ℕ) none))) = some (-1)
    rw [hfilt, meanO_single]
  unfold retContrib
  rw [hd]
  simp only [List.map_cons, List.map_nil]
  rw [hcs, hfn]
  simp only [List.map_cons, List.map_nil]
  rw [hrank1, hrank2, hret, hq1, hq2]

/-- C3 counterexample: on `pR` with ret_weighted, the date-1 contributions
are (1, -1): both non-zero and non-NaN, yet they cancel, the normalization
divides by the zero sum, and the weights are (NaN, NaN) — their skipna sum
is 0, not 1. -/
theorem c3_counterexample :
    retContrib pR (.db false) = [[some (1 : ℚ), some (-1)]]
    ∧ (∃ o ∈ [some (1 : ℚ), some (-1)], ∃ x, o = some x ∧ x ≠ 0)
    ∧ retWeights pR (.db false) 12 = [[none, none]]
    ∧ sumO [none, none] ≠ 1 := by
  have hm1 : meanO [some (1 : ℚ)] = some 1 := meanO_single 1
  have hm2 : meanO [some (-1 : ℚ)] = some (-1) := meanO_single (-1)
  have hroll : rollingApply 2 12 meanO [[some (1 : ℚ), some (-1)]]
      = [[some 1, some (-1)]] := by
    show [[meanO [some (1 : ℚ)], meanO [some (-1 : ℚ)]]] = _
    rw [hm1, hm2]
  have hsum : sumO [some (1 : ℚ), some (-1)] = 0 := by
    rw [sumO_cons_some, sumO_cons_some]
    norm_num [sumO]
  have hnorm : normalizeRow [some (1 : ℚ), some (-1)] = [none, none] := by
    show ([some (1 : ℚ), some (-1)].map (fun o => o.bind (fun x =>
      if sumO [some (1 : ℚ), some (-1)] = 0 then none
      else some (x / sumO [some (1 : ℚ), some (-1)])))) = [none, none]
    simp only [hsum, List.map_cons, List.map_nil]
    simp
  have hlen : (factorNames pR).length = 2 := by decide
  refine ⟨retContrib_pR, ⟨some 1, List.mem_cons_self _ _, 1, rfl, one_ne_zero⟩, ?_, ?_⟩
  · unfold retWeights
    rw [retContrib_pR, hlen, hroll]
    simp only [List.map_cons, List.map_nil, hnorm]
  · rw [sumO_cons_none, sumO_cons_none]
    norm_num [sumO]

/-- C3 witness: the normalization theorem applied to the one-factor,
one-date IC matrix [[1]] under ic_weighted, whose single contribution 1 is
non-zero: the weight row sums to 1. -/
theorem c3_witness :
    normalizeRow [some (1 : ℚ)] ∈ icWeights 1 1 [[some (1 : ℚ)]]
    ∧ sumO (normalizeRow [some (1 : ℚ)]) = 1 := by
  have hic : icContrib 1 1 [[some (1 : ℚ)]] = [[some 1]] := by
    show [[meanO [some |(1 : ℚ)|]]] = [[some 1]]
    rw [meanO_single]
    norm_num
  have h := c3_weight_normalization.1 1 1 [[some (1 : ℚ)]] [some 1]
    (by rw [hic]; exact List.mem_cons_self _ _)
  exact ⟨h.1, h.2.1 ⟨some 1, List.mem_cons_self _ _, 1, rfl, one_ne_zero⟩⟩

/-! `dynamic_score`.  Its `get_rank` offsets by the column-total missing
count (`dynGetRankCol` above); its `ret_weighted` body has the latent defect
C5 is about. -/

/-- `dynamic_score.get_rank` column for one factor over the whole panel
(default `rank_method='first'`, `na_option='keep'`), one inner list per
date. -/
def dynRankColsOf (p : SPanel) (dir : DirSpec) (f : String) : List (List ℕ) :=
  dynGetRankCol (!dirFor dir f) ((datesOfS p).map (fun d => colCS p (csOf p d) f))

/-- `rnk.mean(axis=1)` for the row at position `i` of the cross-section at
date position `dIdx`. -/
def dynMeanRank (p : SPanel) (dir : DirSpec) (dIdx i : ℕ) : ℚ :=
  ((factorNames p).map (fun f =>
    ((((dynRankColsOf p dir f).getD dIdx []).getD i 0 : ℕ) : ℚ))).sum
    / ((factorNames p).length : ℚ)

/-- `dynamic_score.equal_weighted`:
`fac_ret_data[factor_names].mul(rnk.mean(axis=1), axis=0).sum(axis=1)` —
each factor VALUE times the row's mean rank, summed skipna. -/
def dyn_equal_weighted_strat (p : SPanel) (dir : DirSpec) :
    Except PyErr (List (ℕ × ℕ × ℚ)) :=
  .ok ((datesOfS p).enum.flatMap (fun de =>
    (csOf p de.2).enum.map (fun e =>
      (de.2, e.2.code,
        sumO ((factorNames p).map (fun f =>
          ((colCS p (csOf p de.2) f).getD e.1 none).map
            (fun v => v * dynMeanRank p dir de.1 e.1)))))))

/-- The `first_group_returns` accumulator of `dynamic_score.ret_weighted`:
the per-factor loop computes each factor's top-group return series but the
append into the accumulator is absent from the loop body, so the fold over
the factors leaves it untouched. -/
def dyn_first_group_returns (p : SPanel) : List (List (Option ℚ)) :=
  (factorNames p).foldl (fun acc _f => acc) []

theorem dyn_first_group_returns_nil (p : SPanel) :
    dyn_first_group_returns p = [] := by
  unfold dyn_first_group_returns
  have h : ∀ l : List String,
      l.foldl (fun acc _f => acc) ([] : List (List (Option ℚ))) = [] := by
    intro l
    induction l with
    | nil => rfl
    | cons a l ih => simpa [List.foldl_cons] using ih
  exact h _

/-- `dynamic_score.ret_weighted`: the loop reads the `ret` column (KeyError
when absent) but never populates `first_group_returns`
(`dyn_first_group_returns_nil`); `pd.concat` of the empty accumulator then
raises ValueError("No objects to concatenate") before any weight exists. -/
def dyn_ret_weighted_strat (p : SPanel) : Except PyErr (List (ℕ × ℕ × ℚ)) :=
  if "ret" ∈ p.colNames then .error (.valueError "No objects to concatenate")
  else .error (.keyError "ret")

/-- `dynamic_score`: same factor check and five-name dispatch as `score`.
The ic/icir bodies divide a date × factor frame by a date-indexed series
(label alignment no claim reaches) and stay external, as does the
context body. -/
def dynamic_score (ext : Ext) (p : SPanel) (method : String) (dir : DirSpec) :
    List Effect × Except PyErr (List (ℕ × ℕ × ℚ)) :=
  if factorNames p = [] then
    ([], .error (.valueError "fac_ret_data must have at least 1 factor, got 0."))
  else
    tryDispatch
      [("equal_weighted", fun _ => dyn_equal_weighted_strat p dir),
       ("ic_weighted", fun _ => ext.dynIcW p),
       ("icir_weighted", fun _ => ext.dynIcirW p),
       ("ret_weighted", fun _ => dyn_ret_weighted_strat p),
       ("context_weighted", fun _ => ext.dynContextW p)] method

/-- C5: `dynamic_score.ret_weighted` never populates `first_group_returns`
(the loop lacks the append), so the claimed date × factor matrix of
top-group returns is never assembled: the accumulator is empty for every
panel, and on the concrete panel `pScore` the strategy fails with the
no-objects-to-concatenate ValueError instead of producing weights. -/
theorem c5_dynamic_ret_weighted_empty :
    (∀ p : SPanel, dyn_first_group_returns p = [])
    ∧ dynamic_score extTriv pScore "ret_weighted" (.db false)
        = ([], .error (.valueError "No objects to concatenate")) :=
  ⟨dyn_first_group_returns_nil, rfl⟩

/-! `general/util.py`: industry-lookup batching. -/

def pySlice {α : Type} (xl : List α) (i j : ℕ) : List α := (xl.drop i).take (j - i)

/-- `__get_stock_industry` batching: `cutter = list(range(0, codes_len, 100))`,
then `cutter.append(codes_len - 1)`, consecutive cut points are paired and
each pair (i, j) queries `codes[i:j]`. -/
def industryBatches {α : Type} (codes : List α) : List (List α) :=
  if codes.length > 100 then
    ((((List.range' 0 ((codes.length + 99) / 100) 100) ++ [codes.length - 1]).zip
      (((List.range' 0 ((codes.length + 99) / 100) 100) ++ [codes.length - 1]).drop 1)).map
        (fun q => pySlice codes q.1 q.2))
  else [codes]

/-- C9: with 101 identifiers (codes 0..100) the cut points are
(0, 100, 100): the batches are codes[0:100] and the empty slice
codes[100:100], so their union misses the last identifier, which is never
queried — the claim that the batches cover the entire input fails. -/
theorem c9_last_identifier_dropped :
    industryBatches (List.range 101) = [List.range 100, []]
    ∧ (industryBatches (List.range 101)).flatten ≠ List.range 101
    ∧ 100 ∈ List.range 101
    ∧ 100 ∉ (industryBatches (List.range 101)).flatten := by
  refine ⟨by decide, by decide, by decide, by decide⟩

/-! `general/util.py`: per-date column-wise neutralization
(`single_neutral` / `__single_neutral`).  One date's cross-section is a
frame: named columns of cells, all of the same row count.  The statsmodels
OLS residual computation is the external parameter `ols` (taking the target
values on the valid rows and the `fillna(0)` predictor rows); `none` is a
per-column regression failure. -/

abbrev Frame := List (String × List (Option ℚ))

def fcols (df : Frame) : List String := df.map (fun e => e.1)

def fget (df : Frame) (c : String) : Option (List (Option ℚ)) :=
  (df.find? (fun e => e.1 == c)).map (fun e => e.2)

/-- Python `col[:1] not in ['M', 'r', 'b']` (the predictor columns). -/
def isFieldX (c : String) : Bool :=
  match c.data with
  | [] => true
  | ch :: _ => !(ch == 'M' || ch == 'r' || ch == 'b')

/-- Python `col[:1] in ['M', 'r', 'c', 'b']` (the regression targets,
computed on the renamed frame). -/
def isFieldY (c : String) : Bool :=
  match c.data with
  | [] => false
  | ch :: _ => ch == 'M' || ch == 'r' || ch == 'c' || ch == 'b'

def field_x (cols : List String) : List String := cols.filter isFieldX

/-- `field_dic`: the field_x columns enumerated as x1, x2, ... (note the
source also maps `cap` to an x-name while never renaming the `cap` column
itself). -/
def field_dic (cols : List String) : List (String × String) :=
  (field_x cols).enum.map (fun e => (e.2, "x" ++ toString (e.1 + 1)))

def formulaVars (cols : List String) : List String :=
  (field_dic cols).map (fun e => e.2)

def renameEntry (dic : List (String × String)) (e : String × List (Option ℚ)) :
    String × List (Option ℚ) :=
  if isFieldX e.1 && e.1 != "cap" then
    ((((dic.find? (fun q => q.1 == e.1)).map (fun q => q.2)).getD e.1), e.2)
  else e

/-- Rename the field_x columns (except `cap`) to their x-names; the dict is
built from the ORIGINAL column names. -/
def renameCols (df : Frame) : Frame :=
  df.map (renameEntry (field_dic (fcols df)))

def reserved3 : List String := ["ret", "cap", "benchmark_returns"]

def validIdxOf (vals : List (Option ℚ)) : List ℕ :=
  (List.range vals.length).filter (fun i => (vals.getD i none).isSome)

/-- Regression target values: the column on its own non-missing rows. -/
def yFor (vals : List (Option ℚ)) : List ℚ :=
  (validIdxOf vals).map (fun i => (vals.getD i none).getD 0)

/-- Predictor rows for the same valid rows, `fillna(0)` applied. -/
def XFor (fvars : List String) (df : Frame) (vals : List (Option ℚ)) :
    List (List ℚ) :=
  (validIdxOf vals).map (fun i =>
    fvars.map (fun v => (((fget df v).getD []).getD i none).getD 0))

/-- `__single_neutral`: reserved columns pass through; an all-missing target
falls through the inner `if` and returns Python None (`none` here); a
formula variable absent from the frame makes the OLS call raise, caught by
the bare `except` that returns the original column, as does any OLS
failure; on success the residuals are reindexed onto the full index, with
the column's own missing rows staying missing. -/
def residReindex (resids : List ℚ) (vals : List (Option ℚ)) :
    List (Option ℚ) :=
  (List.range vals.length).map (fun i =>
    if (vals.getD i none).isSome then
      some (resids.getD ((validIdxOf vals).indexOf i) 0)
    else none)

def singleNeutralCol (ols : List ℚ → List (List ℚ) → Option (List ℚ))
    (fvars : List String) (df : Frame) (col : String) :
    Option (String × List (Option ℚ)) :=
  if col ∈ reserved3 then some (col, (fget df col).getD [])
  else if countNone ((fget df col).getD []) = ((fget df col).getD []).length then
    none
  else if fvars.any (fun v => !(fcols df).contains v) then
    some (col, (fget df col).getD [])
  else
    match ols (yFor ((fget df col).getD []))
        (XFor fvars df ((fget df col).getD [])) with
    | none => some (col, (fget df col).getD [])
    | some resids => some (col, residReindex resids ((fget df col).getD []))

/-- `df.update(other)`: overwrite only with the non-missing entries of the
update. -/
def updateCol (old new : List (Option ℚ)) : List (Option ℚ) :=
  (old.zip new).map (fun q => match q.2 with | some v => some v | none => q.1)

def field_y (cols : List String) : List String := cols.filter isFieldY

/-- The `result` list of `single_neutral`: every field_y column of the
renamed frame regressed independently (order-independent, collected by
name), with the Python None results dropped by the concatenation. -/
def neutralResult (ols : List ℚ → List (List ℚ) → Option (List ℚ))
    (df0 : Frame) : List (String × List (Option ℚ)) :=
  (field_y (fcols (renameCols df0))).filterMap
    (singleNeutralCol ols (formulaVars (fcols df0)) (renameCols df0))

/-- One entry of `df.update(pd.concat(result, axis=1))`. -/
def applyEntry (result : List (String × List (Option ℚ)))
    (e : String × List (Option ℚ)) : String × List (Option ℚ) :=
  match result.find? (fun r => r.1 == e.1) with
  | none => e
  | some r => (e.1, updateCol e.2 r.2)

def applyUpdates (result : List (String × List (Option ℚ))) (df : Frame) :
    Frame :=
  df.map (applyEntry result)

/-- `single_neutral`: build the formula from the original columns, rename
the predictor columns, regress the field_y columns, concatenate the
non-None results (ValueError when none remain) and `update` the renamed
frame with them. -/
def single_neutral (ols : List ℚ → List (List ℚ) → Option (List ℚ))
    (df0 : Frame) : Except PyErr Frame :=
  if (neutralResult ols df0).isEmpty then
    .error (.valueError "No objects to concatenate")
  else .ok (applyUpdates (neutralResult ols df0) (renameCols df0))

theorem applyEntry_fst (result : List (String × List (Option ℚ)))
    (e : String × List (Option ℚ)) : (applyEntry result e).1 = e.1 := by
  unfold applyEntry
  split <;> rfl

theorem applyEntry_not_found (result : List (String × List (Option ℚ)))
    (e : String × List (Option ℚ))
    (h : result.find? (fun r => r.1 == e.1) = none) :
    applyEntry result e = e := by
  unfold applyEntry
  rw [h]

theorem updateCol_self (vals : List (Option ℚ)) : updateCol vals vals = vals := by
  unfold updateCol
  induction vals with
  | nil => rfl
  | cons a l ih =>
    rw [List.zip_cons_cons, List.map_cons, ih]
    cases a <;> rfl

theorem fget_skip (L R : Frame) (mid : String × List (Option ℚ)) (d : String)
    (hmid : mid.1 ≠ d) : fget (L ++ mid :: R) d = fget (L ++ R) d := by
  unfold fget
  rw [List.find?_append, List.find?_append]
  have h2 : (mid :: R).find? (fun e => e.1 == d) = R.find? (fun e => e.1 == d) := by
    apply List.find?_cons_of_neg
    simp [hmid]
  rw [h2]

theorem fget_hit (L R : Frame) (d : String) (vals : List (Option ℚ))
    (hL : ∀ e ∈ L, e.1 ≠ d) : fget (L ++ (d, vals) :: R) d = some vals := by
  unfold fget
  rw [List.find?_append]
  have hnone : L.find? (fun e => e.1 == d) = none := by
    rw [List.find?_eq_none]
    intro e he
    simpa using hL e he
  rw [hnone, List.find?_cons_of_pos _ (by simp)]
  rfl

theorem countNone_allNone (vals : List (Option ℚ))
    (hall : ∀ o ∈ vals, o = none) : countNone vals = vals.length := by
  unfold countNone
  rw [Finset.filter_true_of_mem]
  · simp
  · intro i _
    rw [hall (vals.get i) (List.get_mem vals i.1 i.2)]
    rfl

theorem singleNeutralCol_name (ols : List ℚ → List (List ℚ) → Option (List ℚ))
    (fvars : List String) (df : Frame) (col : String)
    (r : String × List (Option ℚ)) (h : singleNeutralCol ols fvars df col = some r) :
    r.1 = col := by
  unfold singleNeutralCol at h
  by_cases h1 : col ∈ reserved3
  · rw [if_pos h1] at h
    cases h; rfl
  · rw [if_neg h1] at h
    by_cases h2 : countNone ((fget df col).getD []) = ((fget df col).getD []).length
    · rw [if_pos h2] at h
      cases h
    · rw [if_neg h2] at h
      by_cases h3 : (fvars.any fun v => !(fcols df).contains v) = true
      · rw [if_pos h3] at h
        cases h; rfl
      · rw [if_neg h3] at h
        cases hols : ols (yFor ((fget df col).getD []))
            (XFor fvars df ((fget df col).getD [])) with
        | none =>
          rw [hols] at h
          cases h; rfl
        | some resids =>
          rw [hols] at h
          cases h; rfl

theorem singleNeutralCol_allNone (ols : List ℚ → List (List ℚ) → Option (List ℚ))
    (fvars : List String) (df : Frame) (col : String) (vals : List (Option ℚ))
    (hget : fget df col = some vals) (hRc : col ∉ reserved3)
    (hall : ∀ o ∈ vals, o = none) :
    singleNeutralCol ols fvars df col = none := by
  unfold singleNeutralCol
  rw [hget]
  show (if col ∈ reserved3 then some (col, vals)
    else if countNone vals = vals.length then none
    else if fvars.any (fun v => !(fcols df).contains v) then some (col, vals)
    else match ols (yFor vals) (XFor fvars df vals) with
      | none => some (col, vals)
      | some resids => some (col, residReindex resids vals)) = none
  rw [if_neg hRc, if_pos (countNone_allNone vals hall)]

/-- C7 part 3, per column: a per-column regression failure (or a formula
referencing an absent variable) makes `__single_neutral` return the original
column unchanged, and `update` with an unchanged column is the identity. -/
theorem singleNeutralCol_olsFail (ols : List ℚ → List (List ℚ) → Option (List ℚ))
    (fvars : List String) (df : Frame) (col : String) (cvals : List (Option ℚ))
    (hget : fget df col = some cvals) (hRc : col ∉ reserved3)
    (hnall : countNone cvals ≠ cvals.length)
    (hols : ols (yFor cvals) (XFor fvars df cvals) = none) :
    singleNeutralCol ols fvars df col = some (col, cvals) := by
  unfold singleNeutralCol
  rw [hget]
  show (if col ∈ reserved3 then some (col, cvals)
    else if countNone cvals = cvals.length then none
    else if fvars.any (fun v => !(fcols df).contains v) then some (col, cvals)
    else match ols (yFor cvals) (XFor fvars df cvals) with
      | none => some (col, cvals)
      | some resids => some (col, residReindex resids cvals)) = some (col, cvals)
  rw [if_neg hRc, if_neg hnall]
  split
  · rfl
  · rw [hols]

theorem isFieldX_of_head_x (s : String) (h : s.data.head? = some 'x') :
    isFieldX s = true := by
  unfold isFieldX
  cases hd : s.data with
  | nil =>
    rw [hd] at h
  | cons ch rest =>
    rw [hd] at h
    injection h with h
    subst h
    rfl

theorem dic_snd_head (cols : List String) (q : String × String)
    (hq : q ∈ field_dic cols) : q.2.data.head? = some 'x' := by
  unfold field_dic at hq
  obtain ⟨e, _, rfl⟩ := List.mem_map.mp hq
  show ("x" ++ toString (e.1 + 1)).data.head? = some 'x'
  rw [String.data_append]
  rfl

theorem renameEntry_name_ne (cols : List String) (c : String)
    (hXc : isFieldX c = false) (e : String × List (Option ℚ)) (he : e.1 ≠ c) :
    (renameEntry (field_dic cols) e).1 ≠ c := by
  unfold renameEntry
  split
  · cases hfind : (field_dic cols).find? (fun q => q.1 == e.1) with
    | none => simpa [hfind] using he
    | some q =>
      simp only [hfind, Option.map_some', Option.getD_some]
      intro hqc
      have hx := dic_snd_head cols q (List.mem_of_find?_eq_some hfind)
      rw [hqc] at hx
      rw [isFieldX_of_head_x c hx] at hXc
      cases hXc
  · exact he

theorem renameEntry_id_of_not_fieldX (dic : List (String × String))
    (e : String × List (Option ℚ)) (he : isFieldX e.1 = false) :
    renameEntry dic e = e := by
  unfold renameEntry
  rw [he]
  rfl

theorem renameEntry_fst_or (dic : List (String × String))
    (e : String × List (Option ℚ)) :
    (renameEntry dic e).2 = e.2 := by
  unfold renameEntry
  split <;> rfl

theorem contains_middle (l1 l2 : List String) (c v : String) (hvc : v ≠ c) :
    (l1 ++ c :: l2).contains v = (l1 ++ l2).contains v := by
  rw [Bool.eq_iff_iff]
  simp only [List.contains, List.elem_iff, List.mem_append, List.mem_cons]
  constructor
  · rintro (h | h | h)
    · exact Or.inl h
    · exact absurd h hvc
    · exact Or.inr h
  · rintro (h | h)
    · exact Or.inl h
    · exact Or.inr (Or.inr h)

theorem fvars_fieldX (cols : List String) (v : String)
    (hv : v ∈ formulaVars cols) : isFieldX v = true := by
  unfold formulaVars at hv
  obtain ⟨q, hq, rfl⟩ := List.mem_map.mp hv
  exact isFieldX_of_head_x q.2 (dic_snd_head cols q hq)

theorem singleNeutralCol_congr (ols : List ℚ → List (List ℚ) → Option (List ℚ))
    (fvars : List String) (df1 df2 : Frame) (d : String)
    (hg : fget df1 d = fget df2 d)
    (hany : (fvars.any (fun v => !(fcols df1).contains v))
          = (fvars.any (fun v => !(fcols df2).contains v)))
    (hfv : ∀ v ∈ fvars, fget df1 v = fget df2 v) :
    singleNeutralCol ols fvars df1 d = singleNeutralCol ols fvars df2 d := by
  have hX : ∀ cv, XFor fvars df1 cv = XFor fvars df2 cv := by
    intro cv
    unfold XFor
    apply List.map_congr_left
    intro i _
    apply List.map_congr_left
    intro v hv
    rw [hfv v hv]
  unfold singleNeutralCol
  rw [hg, hany, hX]

theorem singleNeutralCol_reserved
    (ols : List ℚ → List (List ℚ) → Option (List ℚ))
    (fvars : List String) (df : Frame) (col : String) (h : col ∈ reserved3) :
    singleNeutralCol ols fvars df col = some (col, (fget df col).getD []) := by
  unfold singleNeutralCol
  rw [if_pos h]

theorem field_x_middle (NA NB : List String) (c : String)
    (hXc : isFieldX c = false) :
    field_x (NA ++ c :: NB) = field_x (NA ++ NB) := by
  unfold field_x
  rw [List.filter_append, List.filter_append,
    List.filter_cons_of_neg (by simp [hXc])]

theorem field_y_middle (NA NB : List String) (c : String)
    (hYc : isFieldY c = true) :
    field_y (NA ++ c :: NB) = field_y NA ++ c :: field_y NB := by
  unfold field_y
  rw [List.filter_append, List.filter_cons_of_pos (by simp [hYc])]

theorem field_y_append (NA NB : List String) :
    field_y (NA ++ NB) = field_y NA ++ field_y NB := by
  unfold field_y
  rw [List.filter_append]

theorem neutralResult_middle (ols : List ℚ → List (List ℚ) → Option (List ℚ))
    (A B : Frame) (c : String) (vals : List (Option ℚ))
    (hXc : isFieldX c = false) (hYc : isFieldY c = true) (hRc : c ∉ reserved3)
    (hA : ∀ e ∈ A, e.1 ≠ c) (hB : ∀ e ∈ B, e.1 ≠ c)
    (hall : ∀ o ∈ vals, o = none) :
    neutralResult ols (A ++ (c, vals) :: B) = neutralResult ols (A ++ B) := by
  have h_cols0 : fcols (A ++ (c, vals) :: B) = fcols A ++ c :: fcols B := by
    simp [fcols]
  have h_cols0' : fcols (A ++ B) = fcols A ++ fcols B := by simp [fcols]
  have h_dic : field_dic (fcols (A ++ (c, vals) :: B))
      = field_dic (fcols (A ++ B)) := by
    unfold field_dic
    rw [h_cols0, h_cols0', field_x_middle _ _ _ hXc]
  have h_fv : formulaVars (fcols (A ++ (c, vals) :: B))
      = formulaVars (fcols (A ++ B)) := by
    unfold formulaVars
    rw [h_dic]
  have h_ren : renameCols (A ++ (c, vals) :: B)
      = (A.map (renameEntry (field_dic (fcols (A ++ B)))))
        ++ (c, vals) :: (B.map (renameEntry (field_dic (fcols (A ++ B))))) := by
    unfold renameCols
    rw [h_dic, List.map_append, List.map_cons,
      renameEntry_id_of_not_fieldX _ (c, vals) hXc]
  have h_ren' : renameCols (A ++ B)
      = (A.map (renameEntry (field_dic (fcols (A ++ B)))))
        ++ (B.map (renameEntry (field_dic (fcols (A ++ B))))) := by
    unfold renameCols
    rw [List.map_append]
  have h_NAne : ∀ e ∈ A.map (renameEntry (field_dic (fcols (A ++ B)))),
      e.1 ≠ c := by
    intro e he
    obtain ⟨e0, he0, rfl⟩ := List.mem_map.mp he
    exact renameEntry_name_ne (fcols (A ++ B)) c hXc e0 (hA e0 he0)
  have h_NBne : ∀ e ∈ B.map (renameEntry (field_dic (fcols (A ++ B)))),
      e.1 ≠ c := by
    intro e he
    obtain ⟨e0, he0, rfl⟩ := List.mem_map.mp he
    exact renameEntry_name_ne (fcols (A ++ B)) c hXc e0 (hB e0 he0)
  have h_colsR : fcols (renameCols (A ++ (c, vals) :: B))
      = fcols (A.map (renameEntry (field_dic (fcols (A ++ B)))))
        ++ c :: fcols (B.map (renameEntry (field_dic (fcols (A ++ B))))) := by
    rw [h_ren]
    simp [fcols]
  have h_colsR' : fcols (renameCols (A ++ B))
      = fcols (A.map (renameEntry (field_dic (fcols (A ++ B)))))
        ++ fcols (B.map (renameEntry (field_dic (fcols (A ++ B))))) := by
    rw [h_ren']
    simp [fcols]
  have h_fvx : ∀ v ∈ formulaVars (fcols (A ++ B)), v ≠ c := by
    intro v hv hvc
    have hfx := fvars_fieldX _ v hv
    rw [hvc, hXc] at hfx
    cases hfx
  have h_any : ((formulaVars (fcols (A ++ B))).any
        (fun v => !(fcols (renameCols (A ++ (c, vals) :: B))).contains v))
      = ((formulaVars (fcols (A ++ B))).any
        (fun v => !(fcols (renameCols (A ++ B))).contains v)) := by
    rw [h_colsR, h_colsR', Bool.eq_iff_iff, List.any_eq_true, List.any_eq_true]
    constructor
    · rintro ⟨v, hv, hvt⟩
      exact ⟨v, hv, by rwa [contains_middle _ _ c v (h_fvx v hv)] at hvt⟩
    · rintro ⟨v, hv, hvt⟩
      exact ⟨v, hv, by rwa [contains_middle _ _ c v (h_fvx v hv)]⟩
  have h_fget : ∀ d, d ≠ c →
      fget (renameCols (A ++ (c, vals) :: B)) d
        = fget (renameCols (A ++ B)) d := by
    intro d hd
    rw [h_ren, h_ren']
    exact fget_skip _ _ (c, vals) d (Ne.symm hd)
  have h_cong : ∀ d, d ≠ c →
      singleNeutralCol ols (formulaVars (fcols (A ++ B)))
        (renameCols (A ++ (c, vals) :: B)) d
      = singleNeutralCol ols (formulaVars (fcols (A ++ B)))
        (renameCols (A ++ B)) d := by
    intro d hd
    exact singleNeutralCol_congr ols _ _ _ d (h_fget d hd) h_any
      (fun v hv => h_fget v (h_fvx v hv))
  have h_getc : fget (renameCols (A ++ (c, vals) :: B)) c = some vals := by
    rw [h_ren]
    exact fget_hit _ _ c vals h_NAne
  have h_none : singleNeutralCol ols (formulaVars (fcols (A ++ B)))
      (renameCols (A ++ (c, vals) :: B)) c = none :=
    singleNeutralCol_allNone ols _ _ c vals h_getc hRc hall
  have h_yA_ne : ∀ d ∈ field_y
      (fcols (A.map (renameEntry (field_dic (fcols (A ++ B)))))), d ≠ c := by
    intro d hd
    have hd2 := List.mem_of_mem_filter hd
    obtain ⟨e, he, rfl⟩ := List.mem_map.mp hd2
    exact h_NAne e he
  have h_yB_ne : ∀ d ∈ field_y
      (fcols (B.map (renameEntry (field_dic (fcols (A ++ B)))))), d ≠ c := by
    intro d hd
    have hd2 := List.mem_of_mem_filter hd
    obtain ⟨e, he, rfl⟩ := List.mem_map.mp hd2
    exact h_NBne e he
  unfold neutralResult
  rw [h_fv, h_colsR, h_colsR', field_y_middle _ _ c hYc, field_y_append,
    List.filterMap_append, List.filterMap_append]
  have h_mid : (c :: field_y
        (fcols (B.map (renameEntry (field_dic (fcols (A ++ B))))))).filterMap
      (singleNeutralCol ols (formulaVars (fcols (A ++ B)))
        (renameCols (A ++ (c, vals) :: B)))
      = (field_y (fcols (B.map (renameEntry (field_dic (fcols (A ++ B))))))).filterMap
      (singleNeutralCol ols (formulaVars (fcols (A ++ B)))
        (renameCols (A ++ (c, vals) :: B))) := by
    rw [List.filterMap_cons, h_none]
  rw [h_mid]
  congr 1
  · exact List.filterMap_congr (fun d hd => h_cong d (h_yA_ne d hd))
  · exact List.filterMap_congr (fun d hd => h_cong d (h_yB_ne d hd))

theorem field_dic_middle (A B : Frame) (c : String) (vals : List (Option ℚ))
    (hXc : isFieldX c = false) :
    field_dic (fcols (A ++ (c, vals) :: B)) = field_dic (fcols (A ++ B)) := by
  have h1 : fcols (A ++ (c, vals) :: B) = fcols A ++ c :: fcols B := by
    simp [fcols]
  have h2 : fcols (A ++ B) = fcols A ++ fcols B := by simp [fcols]
  unfold field_dic
  rw [h1, h2, field_x_middle _ _ _ hXc]

theorem renameCols_middle (A B : Frame) (c : String) (vals : List (Option ℚ))
    (hXc : isFieldX c = false) :
    renameCols (A ++ (c, vals) :: B)
      = A.map (renameEntry (field_dic (fcols (A ++ B))))
        ++ (c, vals) :: B.map (renameEntry (field_dic (fcols (A ++ B)))) := by
  unfold renameCols
  rw [field_dic_middle A B c vals hXc, List.map_append, List.map_cons,
    renameEntry_id_of_not_fieldX _ (c, vals) hXc]

theorem renameCols_append_eq (A B : Frame) :
    renameCols (A ++ B)
      = A.map (renameEntry (field_dic (fcols (A ++ B))))
        ++ B.map (renameEntry (field_dic (fcols (A ++ B)))) := by
  unfold renameCols
  rw [List.map_append]

theorem renameMap_ne (L : Frame) (cols : List String) (c : String)
    (hXc : isFieldX c = false) (hL : ∀ e ∈ L, e.1 ≠ c) :
    ∀ e ∈ L.map (renameEntry (field_dic cols)), e.1 ≠ c := by
  intro e he
  obtain ⟨e0, he0, rfl⟩ := List.mem_map.mp he
  exact renameEntry_name_ne cols c hXc e0 (hL e0 he0)

theorem fcols_renameCols_ne (df : Frame) (c : String)
    (hXc : isFieldX c = false) (hdf : ∀ e ∈ df, e.1 ≠ c) :
    ∀ n ∈ fcols (renameCols df), n ≠ c := by
  intro n hn
  unfold fcols renameCols at hn
  rw [List.map_map] at hn
  obtain ⟨e0, he0, rfl⟩ := List.mem_map.mp hn
  exact renameEntry_name_ne (fcols df) c hXc e0 (hdf e0 he0)

/-- C7: in a single-date cross-section, an entirely-missing target column
`c` (a field_y, non-reserved column, e.g. a factor) is returned unchanged
by `single_neutral` (still entirely missing), its presence does not change
any other column's output, and any per-column regression failure makes
`__single_neutral` pass the original column through unchanged (and the
subsequent `update` with an unchanged column is the identity) instead of
propagating the failure. -/
theorem c7_neutralize_passthrough
    (ols : List ℚ → List (List ℚ) → Option (List ℚ))
    (A B : Frame) (c : String) (vals : List (Option ℚ))
    (hXc : isFieldX c = false) (hYc : isFieldY c = true) (hRc : c ∉ reserved3)
    (hA : ∀ e ∈ A, e.1 ≠ c) (hB : ∀ e ∈ B, e.1 ≠ c)
    (hall : ∀ o ∈ vals, o = none)
    (hret : ∃ e ∈ A ++ B, e.1 = "ret") :
    (∃ out, single_neutral ols (A ++ (c, vals) :: B) = .ok out
        ∧ fget out c = some vals)
    ∧ (∀ d, d ≠ c → ∀ out out',
        single_neutral ols (A ++ (c, vals) :: B) = .ok out →
        single_neutral ols (A ++ B) = .ok out' →
        fget out d = fget out' d)
    ∧ (∀ (df : Frame) (fvars : List String) (col : String)
        (cvals : List (Option ℚ)),
        fget df col = some cvals → col ∉ reserved3 →
        countNone cvals ≠ cvals.length →
        ols (yFor cvals) (XFor fvars df cvals) = none →
        singleNeutralCol ols fvars df col = some (col, cvals)
          ∧ updateCol cvals cvals = cvals) := by
  have h_res := neutralResult_middle ols A B c vals hXc hYc hRc hA hB hall
  obtain ⟨e0, he0, hname⟩ := hret
  have h_rene0 : renameEntry (field_dic (fcols (A ++ B))) e0 = e0 := by
    apply renameEntry_id_of_not_fieldX
    rw [hname]
    rfl
  have h_retmem : "ret" ∈ fcols (renameCols (A ++ B)) := by
    apply List.mem_map.mpr
    refine ⟨renameEntry (field_dic (fcols (A ++ B))) e0, ?_, ?_⟩
    · exact List.mem_map.mpr ⟨e0, he0, rfl⟩
    · rw [h_rene0, hname]
  have h_rety : "ret" ∈ field_y (fcols (renameCols (A ++ B))) :=
    List.mem_filter.mpr ⟨h_retmem, by decide⟩
  have h_retsome := singleNeutralCol_reserved ols (formulaVars (fcols (A ++ B)))
    (renameCols (A ++ B)) "ret" (by decide)
  have h_mem_res : ("ret", (fget (renameCols (A ++ B)) "ret").getD [])
      ∈ neutralResult ols (A ++ B) := by
    unfold neutralResult
    exact List.mem_filterMap.mpr ⟨"ret", h_rety, h_retsome⟩
  have h_ne : neutralResult ols (A ++ B) ≠ [] := List.ne_nil_of_mem h_mem_res
  have h_empty : (neutralResult ols (A ++ B)).isEmpty = false := by
    cases hcase : neutralResult ols (A ++ B) with
    | nil => exact absurd hcase h_ne
    | cons a l => rfl
  have h_run : single_neutral ols (A ++ (c, vals) :: B)
      = .ok (applyUpdates (neutralResult ols (A ++ B))
          (renameCols (A ++ (c, vals) :: B))) := by
    unfold single_neutral
    rw [h_res, h_empty]
    rfl
  have h_run' : single_neutral ols (A ++ B)
      = .ok (applyUpdates (neutralResult ols (A ++ B))
          (renameCols (A ++ B))) := by
    unfold single_neutral
    rw [h_empty]
    rfl
  have h_resnames : ∀ r ∈ neutralResult ols (A ++ B), r.1 ≠ c := by
    intro r hr
    unfold neutralResult at hr
    obtain ⟨d, hd, hsome⟩ := List.mem_filterMap.mp hr
    rw [singleNeutralCol_name _ _ _ _ _ hsome]
    have hd2 := List.mem_of_mem_filter hd
    apply fcols_renameCols_ne (A ++ B) c hXc _ d hd2
    intro e he
    rcases List.mem_append.mp he with h | h
    · exact hA e h
    · exact hB e h
  have h_gc : applyEntry (neutralResult ols (A ++ B)) (c, vals) = (c, vals) := by
    apply applyEntry_not_found
    rw [List.find?_eq_none]
    intro r hr
    simp [h_resnames r hr]
  have h_out_c : fget (applyUpdates (neutralResult ols (A ++ B))
      (renameCols (A ++ (c, vals) :: B))) c = some vals := by
    unfold applyUpdates
    rw [renameCols_middle A B c vals hXc, List.map_append, List.map_cons, h_gc]
    apply fget_hit
    intro e he
    obtain ⟨e1, he1, rfl⟩ := List.mem_map.mp he
    rw [applyEntry_fst]
    exact renameMap_ne A (fcols (A ++ B)) c hXc hA e1 he1
  refine ⟨⟨_, h_run, h_out_c⟩, ?_, ?_⟩
  · intro d hd out out' hout hout'
    rw [h_run] at hout
    rw [h_run'] at hout'
    cases hout
    cases hout'
    unfold applyUpdates
    rw [renameCols_middle A B c vals hXc, renameCols_append_eq,
      List.map_append, List.map_cons, List.map_append, h_gc]
    exact fget_skip _ _ (c, vals) d (Ne.symm hd)
  · intro df fvars col cvals hget hRc' hnall hols
    exact ⟨singleNeutralCol_olsFail ols fvars df col cvals hget hRc' hnall hols,
      updateCol_self cvals⟩

theorem c7_witness :
    ∃ out, single_neutral (fun _ _ => (none : Option (List ℚ)))
        ([("M2", [some 1, some 2]), ("ret", [some 0, some 1])]
          ++ ("M1", [none, none]) :: [("Ind", [some 1, some 0])]) = .ok out
      ∧ fget out "M1" = some [none, none] :=
  (c7_neutralize_passthrough (fun _ _ => (none : Option (List ℚ)))
    [("M2", [some 1, some 2]), ("ret", [some 0, some 1])]
    [("Ind", [some 1, some 0])] "M1" [none, none]
    (by decide) (by decide) (by decide)
    (by decide) (by decide) (by decide)
    ⟨("ret", [some 0, some 1]), by decide, rfl⟩).1

end FreshQuant
